import Mathlib

/-!
Verification development for the qikv LSM key-value store.

This file gives a shallow embedding, in Lean, of the parts of the qikv
sources that the specification's claims are about:

* `src/memtable.rs` — `ValueUpdate`, `MemTable`, `MemTableKeeper`;
* `src/sstable.rs`  — the SST wire format, `SSTable::load_by_id`,
  `SSTable::flush_to_level0_without_manifest`, `SSTable::get`,
  the k-way merge `SSTGroupIter` / `GeneralCombinedIter`, and
  `SSTGroup::compact`;
* `src/manifest.rs` — `Manifest`, `ManifestAction`, the keeper's batch
  commit discipline and `ManifestKeeper::recover`;
* `src/store.rs`    — the `Store` façade (`insert`, `remove`, `get`,
  `checked_flush`, `try_level_compact`).

Bytes are modelled as `Nat` (a real byte is `< 256`; none of the proved
statements depend on an upper bound), byte strings as `List Nat`, and
Rust's `u64`/`usize` as `Nat` with explicit remarks at every point where
overflow or wrap-around could occur in the source.  The `bincode`
standard encoding used by the sources for records, sparse indexes and
manifest actions is modelled concretely (variable-length integers with
the 251/252/253 width tags, length-prefixed byte vectors, enum
discriminants as varint `u32`).  Fallible Rust paths (`Result`, panics
on `unwrap`) are modelled with `Option`, `none` standing for the error
or panic case.  Functions whose Rust termination argument is extrinsic
(loops that advance a cursor through a buffer) take an explicit fuel
argument that is always instantiated large enough; fuel exhaustion is
an unreachable branch.
-/

/-! ## Byte-string comparison

Rust compares `Vec<u8>` lexicographically, a strict prefix being
smaller.  We model the comparison with an `Ordering`-valued function to
keep every use kernel-computable. -/

/-- Comparison of two naturals, written out with `if` so that all later
lemmas are plain case splits. -/
def natCmp (a b : Nat) : Ordering :=
  if a < b then .lt else if b < a then .gt else .eq

/-- Lexicographic comparison of byte strings, as Rust's `Ord` on
`Vec<u8>`: element-wise, a strict prefix is smaller. -/
def keyCmp : List Nat → List Nat → Ordering
  | [], [] => .eq
  | [], _ :: _ => .lt
  | _ :: _, [] => .gt
  | a :: as, b :: bs =>
    match natCmp a b with
    | .eq => keyCmp as bs
    | o => o

/-- Strict "less than" on byte strings. -/
def keyLt (a b : List Nat) : Prop := keyCmp a b = .lt

/-- Non-strict "less or equal" on byte strings. -/
def keyLe (a b : List Nat) : Prop := keyCmp a b ≠ .gt

instance (a b : List Nat) : Decidable (keyLt a b) := by
  unfold keyLt; infer_instance

instance (a b : List Nat) : Decidable (keyLe a b) := by
  unfold keyLe; infer_instance

/-! ## Sorted association lists modelling `BTreeMap` / `BTreeSet`

The sources use `BTreeMap` keyed by byte strings (sparse indexes), by
`u64` (per-level tables) and by `SstId` (range table, under `SstId`'s
custom `Ord`).  We model a `BTreeMap` as an association list kept
sorted by the given comparator; `lookup` searches for the entry whose
key compares equal, `insert` replaces or inserts at the sorted
position, `erase` drops the entry, and `first`/`last` are the head and
last entry of the sorted list. -/

/-- Insertion into a comparator-sorted association list, replacing an
existing binding of an equal key (`BTreeMap::insert`). -/
def mapInsertBy (cmp : α → α → Ordering) : List (α × β) → α → β → List (α × β)
  | [], k, v => [(k, v)]
  | (a, b) :: t, k, v =>
    match cmp k a with
    | .lt => (k, v) :: (a, b) :: t
    | .eq => (k, v) :: t
    | .gt => (a, b) :: mapInsertBy cmp t k v

/-- Lookup of the binding whose key compares equal (`BTreeMap::get`). -/
def mapLookupBy (cmp : α → α → Ordering) : List (α × β) → α → Option β
  | [], _ => none
  | (a, b) :: t, k =>
    match cmp k a with
    | .eq => some b
    | _ => mapLookupBy cmp t k

/-- Removal of the binding whose key compares equal
(`BTreeMap::remove`). -/
def mapEraseBy (cmp : α → α → Ordering) (l : List (α × β)) (k : α) : List (α × β) :=
  l.filter (fun p => !(cmp k p.1 == Ordering.eq))

/-! ## Core data model -/

/-- A staged update for one key: `memtable.rs` `ValueUpdate`. -/
inductive ValueUpdate where
  | tombstone
  | value (v : List Nat)
deriving DecidableEq

/-- A decoded record: one `(Key, ValueUpdate)` pair. -/
abbrev KVPair := List Nat × ValueUpdate

/-- An SST identifier: `sstable.rs` `SstId`. -/
structure SstId where
  level : Nat
  id : Nat
deriving DecidableEq

/-- The custom `Ord` of `SstId` (`sstable.rs` lines 39-47): by level
ascending, then by id descending (newer first within a level). -/
def sstIdCmp (a b : SstId) : Ordering :=
  match natCmp a.level b.level with
  | .eq => natCmp b.id a.id
  | o => o

/-! ## The `bincode` standard encoding

All structured data (WAL records, SST records, sparse indexes, manifest
actions) is serialized with `bincode`'s standard configuration:
variable-length integers (one byte below 251; tag 251 plus a
little-endian `u16`; tag 252 plus a little-endian `u32`; tag 253 plus a
little-endian `u64`), byte vectors as a varint length followed by the
raw bytes, tuples and structs as the concatenation of their fields, and
enums as a varint `u32` discriminant followed by the variant's
fields. -/

/-- Encoding of a `u64` (also used for `usize`) under `bincode`
standard.  For `n ≥ 2 ^ 64` (unrepresentable in the source) the low 64
bits are written. -/
def encodeU64 (n : Nat) : List Nat :=
  if n < 251 then [n]
  else if n < 2 ^ 16 then [251, n % 256, n / 256 % 256]
  else if n < 2 ^ 32 then
    [252, n % 256, n / 2 ^ 8 % 256, n / 2 ^ 16 % 256, n / 2 ^ 24 % 256]
  else
    [253, n % 256, n / 2 ^ 8 % 256, n / 2 ^ 16 % 256, n / 2 ^ 24 % 256,
     n / 2 ^ 32 % 256, n / 2 ^ 40 % 256, n / 2 ^ 48 % 256, n / 2 ^ 56 % 256]

/-- Decoding of a `u64` varint: returns the value and the number of
bytes consumed, or `none` on end of input or an invalid width tag. -/
def decodeU64 : List Nat → Option (Nat × Nat)
  | [] => none
  | b :: r =>
    if b < 251 then some (b, 1)
    else if b = 251 then
      match r with
      | b0 :: b1 :: _ => some (b0 + 2 ^ 8 * b1, 3)
      | _ => none
    else if b = 252 then
      match r with
      | b0 :: b1 :: b2 :: b3 :: _ =>
        some (b0 + 2 ^ 8 * b1 + 2 ^ 16 * b2 + 2 ^ 24 * b3, 5)
      | _ => none
    else if b = 253 then
      match r with
      | b0 :: b1 :: b2 :: b3 :: b4 :: b5 :: b6 :: b7 :: _ =>
        some (b0 + 2 ^ 8 * b1 + 2 ^ 16 * b2 + 2 ^ 24 * b3 + 2 ^ 32 * b4 +
              2 ^ 40 * b5 + 2 ^ 48 * b6 + 2 ^ 56 * b7, 9)
      | _ => none
    else none

/-- Decoding of a `u32` varint (enum discriminants): as `decodeU64` but
a `u64` width tag is an error. -/
def decodeU32 : List Nat → Option (Nat × Nat)
  | [] => none
  | b :: r =>
    if b < 251 then some (b, 1)
    else if b = 251 then
      match r with
      | b0 :: b1 :: _ => some (b0 + 2 ^ 8 * b1, 3)
      | _ => none
    else if b = 252 then
      match r with
      | b0 :: b1 :: b2 :: b3 :: _ =>
        some (b0 + 2 ^ 8 * b1 + 2 ^ 16 * b2 + 2 ^ 24 * b3, 5)
      | _ => none
    else none

/-- Encoding of a byte vector: varint length, then the raw bytes. -/
def encodeBytes (v : List Nat) : List Nat :=
  encodeU64 v.length ++ v

/-- Decoding of a byte vector. -/
def decodeBytes (l : List Nat) : Option (List Nat × Nat) :=
  match decodeU64 l with
  | none => none
  | some (n, c) =>
    let r := l.drop c
    if n ≤ r.length then some (r.take n, c + n) else none

/-- Encoding of a `ValueUpdate`: discriminant 0 for `Tombstone`,
1 followed by the byte vector for `Value`. -/
def encodeVU : ValueUpdate → List Nat
  | .tombstone => [0]
  | .value v => [1] ++ encodeBytes v

/-- Decoding of a `ValueUpdate`. -/
def decodeVU (l : List Nat) : Option (ValueUpdate × Nat) :=
  match decodeU32 l with
  | none => none
  | some (d, c) =>
    match d with
    | 0 => some (.tombstone, c)
    | 1 =>
      match decodeBytes (l.drop c) with
      | none => none
      | some (v, c2) => some (.value v, c + c2)
    | _ => none

/-- Encoding of one `(Key, ValueUpdate)` record, as written by the
memtable WAL, `flush_to_level0_without_manifest` and
`SSTGroup::compact`. -/
def encodeRecord (p : KVPair) : List Nat :=
  encodeBytes p.1 ++ encodeVU p.2

/-- Byte length of one encoded record. -/
def recLen (p : KVPair) : Nat :=
  (encodeRecord p).length

/-- Total byte length of a list of encoded records (the records-section
size of an SST holding them). -/
def encSize (recs : List KVPair) : Nat :=
  (recs.map recLen).sum

/-- Decoding of one record. -/
def decodeRecord (l : List Nat) : Option (KVPair × Nat) :=
  match decodeBytes l with
  | none => none
  | some (k, c) =>
    match decodeVU (l.drop c) with
    | none => none
    | some (u, c2) => some ((k, u), c + c2)

/-- Greedy decoding of a whole records buffer (`SSTableIter` run to
exhaustion); `none` if any position fails to decode.  The fuel is
always at least the buffer length plus one, and every successful decode
consumes at least one byte, so the fuel-exhausted branch is
unreachable. -/
def decodeRecordsGo : Nat → List Nat → Option (List KVPair)
  | 0, _ => none
  | _ + 1, [] => some []
  | f + 1, l =>
    match decodeRecord l with
    | none => none
    | some (p, c) =>
      match decodeRecordsGo f (l.drop c) with
      | none => none
      | some ps => some (p :: ps)

/-- Decoding of a whole records buffer. -/
def decodeRecords (l : List Nat) : Option (List KVPair) :=
  decodeRecordsGo (l.length + 1) l

/-- Encoding of a sparse index (`BTreeMap<Vec<u8>, usize>`): entry
count, then each key/offset pair in ascending key order. -/
def encodeIdx (m : List (List Nat × Nat)) : List Nat :=
  encodeU64 m.length ++ (m.map (fun p => encodeBytes p.1 ++ encodeU64 p.2)).flatten

/-- Decoding of `n` key/offset pairs. -/
def decodeIdxPairs : Nat → List Nat → Option (List (List Nat × Nat) × Nat)
  | 0, _ => some ([], 0)
  | n + 1, l =>
    match decodeBytes l with
    | none => none
    | some (k, c) =>
      match decodeU64 (l.drop c) with
      | none => none
      | some (o, c2) =>
        match decodeIdxPairs n (l.drop (c + c2)) with
        | none => none
        | some (ps, c3) => some ((k, o) :: ps, c + c2 + c3)

/-- Decoding of a sparse index; the decoded pairs are collected into a
`BTreeMap` (duplicate keys overwrite, as in `bincode`'s map decoding). -/
def decodeIdx (l : List Nat) : Option (List (List Nat × Nat) × Nat) :=
  match decodeU64 l with
  | none => none
  | some (n, c) =>
    match decodeIdxPairs n (l.drop c) with
    | none => none
    | some (ps, c2) =>
      some (ps.foldl (fun m p => mapInsertBy keyCmp m p.1 p.2) [], c + c2)

/-- The big-endian `u64` written after the sparse index
(`u64::to_be_bytes`). -/
def be64enc (n : Nat) : List Nat :=
  [n / 2 ^ 56 % 256, n / 2 ^ 48 % 256, n / 2 ^ 40 % 256, n / 2 ^ 32 % 256,
   n / 2 ^ 24 % 256, n / 2 ^ 16 % 256, n / 2 ^ 8 % 256, n % 256]

/-- Big-endian interpretation of a byte list (`u64::from_be_bytes` on
an 8-byte slice). -/
def be64dec (l : List Nat) : Nat :=
  l.foldl (fun acc b => acc * 256 + b) 0

/-! ## Manifest actions and their encoding (`manifest.rs`) -/

/-- The five manifest WAL actions (`manifest.rs` lines 47-54). -/
inductive ManifestAction where
  | commit
  | add (sst : SstId) (firstKey lastKey : List Nat)
  | remove (sst : SstId)
  | newId (level : Nat)
  | nextCompact (level : Nat)
deriving DecidableEq

/-- Encoding of an `SstId` (two varint `u64` fields). -/
def encodeSstId (s : SstId) : List Nat :=
  encodeU64 s.level ++ encodeU64 s.id

/-- Decoding of an `SstId`. -/
def decodeSstId (l : List Nat) : Option (SstId × Nat) :=
  match decodeU64 l with
  | none => none
  | some (lv, c) =>
    match decodeU64 (l.drop c) with
    | none => none
    | some (i, c2) => some (⟨lv, i⟩, c + c2)

/-- Encoding of one `ManifestAction` under `bincode` standard:
discriminant 0-4, then the variant's fields. -/
def encodeAction : ManifestAction → List Nat
  | .commit => [0]
  | .add s fk lk => [1] ++ encodeSstId s ++ encodeBytes fk ++ encodeBytes lk
  | .remove s => [2] ++ encodeSstId s
  | .newId lv => [3] ++ encodeU64 lv
  | .nextCompact lv => [4] ++ encodeU64 lv

/-- Decoding of one `ManifestAction`; `none` on a truncated input or an
out-of-range discriminant. -/
def decodeAction (l : List Nat) : Option (ManifestAction × Nat) :=
  match decodeU32 l with
  | none => none
  | some (d, c) =>
    match d with
    | 0 => some (.commit, c)
    | 1 =>
      match decodeSstId (l.drop c) with
      | none => none
      | some (s, c1) =>
        match decodeBytes (l.drop (c + c1)) with
        | none => none
        | some (fk, c2) =>
          match decodeBytes (l.drop (c + c1 + c2)) with
          | none => none
          | some (lk, c3) => some (.add s fk lk, c + c1 + c2 + c3)
    | 2 =>
      match decodeSstId (l.drop c) with
      | none => none
      | some (s, c1) => some (.remove s, c + c1)
    | 3 =>
      match decodeU64 (l.drop c) with
      | none => none
      | some (lv, c1) => some (.newId lv, c + c1)
    | 4 =>
      match decodeU64 (l.drop c) with
      | none => none
      | some (lv, c1) => some (.nextCompact lv, c + c1)
    | _ => none

/-- Concatenated encoding of a sequence of manifest actions, as they
are laid out in the manifest WAL. -/
def encodeActions (acts : List ManifestAction) : List Nat :=
  (acts.map encodeAction).flatten

/-- Validity of an action as a value of the Rust types: every `u64`
field fits in 64 bits, and key lengths fit in 64 bits (the byte
contents themselves are irrelevant to the codec). -/
def ManifestAction.valid : ManifestAction → Prop
  | .commit => True
  | .add s fk lk =>
    s.level < 2 ^ 64 ∧ s.id < 2 ^ 64 ∧ fk.length < 2 ^ 64 ∧ lk.length < 2 ^ 64
  | .remove s => s.level < 2 ^ 64 ∧ s.id < 2 ^ 64
  | .newId lv => lv < 2 ^ 64
  | .nextCompact lv => lv < 2 ^ 64

instance (a : ManifestAction) : Decidable a.valid := by
  cases a <;> simp only [ManifestAction.valid] <;> infer_instance

/-! ## The in-memory `Manifest` (`manifest.rs` lines 277-526) -/

/-- Sorted insertion into a `BTreeSet<u64>` of SST ids. -/
def idSetInsert : List Nat → Nat → List Nat
  | [], i => [i]
  | j :: t, i =>
    if i < j then i :: j :: t
    else if i = j then j :: t
    else j :: idSetInsert t i

/-- Removal from a `BTreeSet<u64>` of SST ids. -/
def idSetErase (s : List Nat) (i : Nat) : List Nat :=
  s.filter (fun j => !(j == i))

/-- The manifest's four tables.  `newIds` maps a level to the next
available id, `compactKeys` to the level's compaction cursor,
`activeSsts` to the sorted set of live ids, and `sstRanges` maps an
`SstId` (under its custom order: level ascending, id descending) to the
`(first_key, last_key)` range. -/
structure Manifest where
  newIds : List (Nat × Nat)
  compactKeys : List (Nat × List Nat)
  activeSsts : List (Nat × List Nat)
  sstRanges : List (SstId × (List Nat × List Nat))
deriving DecidableEq

/-- The empty manifest (`Manifest::new`). -/
def Manifest.new : Manifest :=
  { newIds := [], compactKeys := [], activeSsts := [], sstRanges := [] }

/-- The deepest level currently present as a key of `active_ssts`
(`manifest.rs` lines 301-307): the largest key of the map, or 0 when
the map is empty.  Note that a level stays a key of `active_ssts` even
when its id set has become empty. -/
def Manifest.maxLevel (m : Manifest) : Nat :=
  match m.activeSsts.getLast? with
  | some p => p.1
  | none => 0

/-- All live ids of one level, as `SstId`s in ascending id order
(`Manifest::get_sst_by_level`). -/
def Manifest.getSstByLevel (m : Manifest) (level : Nat) : List SstId :=
  match mapLookupBy natCmp m.activeSsts level with
  | some ids => ids.map (fun i => ⟨level, i⟩)
  | none => []

/-- All live ids, levels ascending and ids ascending within a level
(`Manifest::active_sst_ids`). -/
def Manifest.activeSstIds (m : Manifest) : List SstId :=
  (m.activeSsts.map (fun p => p.2.map (fun i => (⟨p.1, i⟩ : SstId)))).flatten

/-- Installation of a live SST (`Manifest::add_sst`).  The source
asserts `first_key <= last_key`; the assertion is modelled at the
`executeAction` level. -/
def Manifest.addSst (m : Manifest) (sid : SstId) (fk lk : List Nat) : Manifest :=
  let cur := (mapLookupBy natCmp m.activeSsts sid.level).getD []
  { m with
    activeSsts := mapInsertBy natCmp m.activeSsts sid.level (idSetInsert cur sid.id)
    sstRanges := mapInsertBy sstIdCmp m.sstRanges sid (fk, lk) }

/-- Retirement of an SST (`Manifest::remove_sst`).  `entry(..).or_default()`
re-creates the level's entry even when absent, and leaves it in place
when its id set becomes empty. -/
def Manifest.removeSst (m : Manifest) (sid : SstId) : Manifest :=
  let cur := (mapLookupBy natCmp m.activeSsts sid.level).getD []
  { m with
    activeSsts := mapInsertBy natCmp m.activeSsts sid.level (idSetErase cur sid.id)
    sstRanges := mapEraseBy sstIdCmp m.sstRanges sid }

/-- The id that the next SST of a level will receive
(`Manifest::latest_sst_id`). -/
def Manifest.latestSstId (m : Manifest) (level : Nat) : SstId :=
  match mapLookupBy natCmp m.newIds level with
  | some i => ⟨level, i⟩
  | none => ⟨level, 0⟩

/-- Advancing a level's id allocator (`Manifest::new_sst_id`):
`and_modify(|i| *i += 1).or_insert(1)`. -/
def Manifest.newSstId (m : Manifest) (level : Nat) : SstId × Manifest :=
  match mapLookupBy natCmp m.newIds level with
  | some i =>
    (⟨level, i + 1⟩, { m with newIds := mapInsertBy natCmp m.newIds level (i + 1) })
  | none =>
    (⟨level, 1⟩, { m with newIds := mapInsertBy natCmp m.newIds level 1 })

/-- Every live SST whose closed range contains `key`
(`Manifest::get_sst_by_key`); `none` models the `unwrap` panic when a
live id has no recorded range. -/
def Manifest.getSstByKey (m : Manifest) (key : List Nat) : Option (List SstId) :=
  (m.activeSstIds.mapM
      (fun sid => (mapLookupBy sstIdCmp m.sstRanges sid).map (fun r => (sid, r)))).map
    (fun l =>
      (l.filter (fun p => decide (keyLe p.2.1 key) && decide (keyLe key p.2.2))).map (·.1))

/-- Every SST of `level + 1` whose range intersects that of `id`
(`Manifest::get_overlappings`). -/
def Manifest.getOverlappings (m : Manifest) (sid : SstId) : Option (List SstId) :=
  match mapLookupBy sstIdCmp m.sstRanges sid with
  | none => some []
  | some r =>
    match mapLookupBy natCmp m.activeSsts (sid.level + 1) with
    | none => some []
    | some ids =>
      (ids.mapM
          (fun i =>
            (mapLookupBy sstIdCmp m.sstRanges ⟨sid.level + 1, i⟩).map
              (fun r2 => ((⟨sid.level + 1, i⟩ : SstId), r2)))).map
        (fun l =>
          (l.filter (fun p => decide (keyLe p.2.1 r.2) && decide (keyLe r.1 p.2.2))).map (·.1))

/-! ### Compaction cursor (`manifest.rs` lines 310-384)

`get_sst_by_key_start` and `next_sst_start` sort a level's ids by their
range start and walk adjacent pairs; every `unwrap` of a missing range
and both `unreachable!()` arms are modelled as `none`. -/

/-- Insertion step of the sort by range start
(`sort_unstable_by` on the first key). -/
def insertByStart (p : SstId × List Nat) :
    List (SstId × List Nat) → List (SstId × List Nat)
  | [] => [p]
  | q :: t =>
    if keyCmp p.2 q.2 = .gt then q :: insertByStart p t else p :: q :: t

/-- A level's live ids paired with their range starts, sorted by start
key; `none` when a live id has no recorded range (`unwrap` panic). -/
def Manifest.levelByStart (m : Manifest) (level : Nat) :
    Option (List (SstId × List Nat)) :=
  ((m.getSstByLevel level).mapM
      (fun sid => (mapLookupBy sstIdCmp m.sstRanges sid).map (fun r => (sid, r.1)))).map
    (fun l => l.foldr insertByStart [])

/-- The pair-walk of `get_sst_by_key_start`: return the id whose start
window contains `key`; the last id is returned unconditionally. -/
def walkByStart (key : List Nat) : List (SstId × List Nat) → Option SstId
  | [] => none
  | [p] => some p.1
  | p :: q :: t =>
    if keyLe p.2 key ∧ keyLt key q.2 then some p.1 else walkByStart key (q :: t)

/-- The pair-walk of `next_sst_start`: return the next window's start
key, wrapping to `first` (the start of the first id in start order)
past the end. -/
def walkNextStart (key first : List Nat) :
    List (SstId × List Nat) → Option (List Nat)
  | [] => none
  | [_] => some first
  | p :: q :: t =>
    if keyLe p.2 key ∧ keyLt key q.2 then some q.2
    else walkNextStart key first (q :: t)

/-- `Manifest::get_sst_by_key_start`. -/
def Manifest.getSstByKeyStart (m : Manifest) (level : Nat) (key : List Nat) :
    Option SstId :=
  (m.levelByStart level).bind (walkByStart key)

/-- `Manifest::next_sst_start`. -/
def Manifest.nextSstStart (m : Manifest) (level : Nat) (key : List Nat) :
    Option (List Nat) :=
  (m.levelByStart level).bind
    (fun sorted =>
      match sorted.head? with
      | none => none
      | some p0 => walkNextStart key p0.2 sorted)

/-- `Manifest::latest_compact_sst`: the SST owning the current cursor
position.  The `assert!(level <= max_level)` and the `unwrap` on an
empty `sst_ranges` are modelled as `none`. -/
def Manifest.latestCompactSst (m : Manifest) (level : Nat) : Option SstId :=
  if level ≤ m.maxLevel then
    match mapLookupBy natCmp m.compactKeys level with
    | some key => m.getSstByKeyStart level key
    | none =>
      match m.sstRanges.head? with
      | none => none
      | some p => m.getSstByKeyStart level p.2.1
  else none

/-- `Manifest::next_compact_sst`: advance the cursor and return the new
target together with the updated manifest. -/
def Manifest.nextCompactSst (m : Manifest) (level : Nat) :
    Option (SstId × Manifest) :=
  if level ≤ m.maxLevel then
    let nextStart? :=
      match mapLookupBy natCmp m.compactKeys level with
      | some key => m.nextSstStart level key
      | none => m.sstRanges.head?.map (fun p => p.2.1)
    match nextStart? with
    | none => none
    | some ns =>
      let m2 := { m with compactKeys := mapInsertBy natCmp m.compactKeys level ns }
      (m2.getSstByKeyStart level ns).map (fun sid => (sid, m2))
  else none

/-- `Manifest::execute_action`; `none` where the source panics (the
`assert!` in `add_sst`, and the unwraps reached through
`next_compact_sst`). -/
def Manifest.executeAction (m : Manifest) : ManifestAction → Option Manifest
  | .commit => some m
  | .nextCompact level => (m.nextCompactSst level).map (·.2)
  | .add sid fk lk => if keyLe fk lk then some (m.addSst sid fk lk) else none
  | .remove sid => some (m.removeSst sid)
  | .newId level => some (m.newSstId level).2

/-- Sequential application of a batch of actions, as
`ManifestKeeper::commit` and the recovery loop perform it. -/
def applyBatch (m : Manifest) : List ManifestAction → Option Manifest
  | [] => some m
  | a :: t =>
    match m.executeAction a with
    | none => none
    | some m2 => applyBatch m2 t

/-! ## Manifest log recovery (`ManifestKeeper::recover`, lines 152-176)

The recovery loop decodes actions from the log buffer, buffering them
into a pending batch; a decoded `Commit` applies the pending batch; a
decode failure stops the loop, discards the pending batch, and
truncates the file at the current cursor (`set_len(cur)`); a clean end
of buffer stops the loop, discards the pending batch, and leaves the
file length unchanged.

The model returns the list of actions applied (in application order,
`Commit` markers excluded, exactly what the source folds through
`execute_action`) together with the resulting file length.  It walks
the remaining suffix of the buffer and counts consumed bytes, which is
the same iteration since the source decodes from `buf[cur..]`. -/

/-- The recovery loop.  The fuel is instantiated with one more than the
buffer length; every decode consumes at least one byte, so fuel cannot
run out before the buffer is exhausted. -/
def recoverGo :
    Nat → List Nat → Nat → List ManifestAction → List ManifestAction →
    List ManifestAction × Nat
  | 0, _, consumed, _, applied => (applied, consumed)
  | _ + 1, [], consumed, _, applied => (applied, consumed)
  | f + 1, rem, consumed, batch, applied =>
    match decodeAction rem with
    | none => (applied, consumed)
    | some (a, size) =>
      match a with
      | .commit => recoverGo f (rem.drop size) (consumed + size) [] (applied ++ batch)
      | _ => recoverGo f (rem.drop size) (consumed + size) (batch ++ [a]) applied

/-- Recovery of a manifest log buffer: the applied actions and the
resulting log file length. -/
def recoverLog (buf : List Nat) : List ManifestAction × Nat :=
  recoverGo (buf.length + 1) buf 0 [] []

/-- Reference semantics of batch-commit recovery, on the action
sequence itself: the concatenation, in order, of exactly those action
groups that are terminated by a `Commit` marker. -/
def committedOf : List ManifestAction → List ManifestAction → List ManifestAction →
    List ManifestAction
  | [], _, applied => applied
  | .commit :: rest, batch, applied => committedOf rest [] (applied ++ batch)
  | a :: rest, batch, applied => committedOf rest (batch ++ [a]) applied

/-! ## The memtable (`memtable.rs`) -/

/-- The in-memory ordered map with its size accumulator.  The skip map
is modelled as an association list sorted strictly by key. -/
structure MemTable where
  entries : List KVPair
  approxSize : Nat
deriving DecidableEq

/-- The empty memtable (`MemTable::new`). -/
def MemTable.empty : MemTable :=
  { entries := [], approxSize := 0 }

/-- The per-entry contribution to `approx_size` (`memtable.rs` lines
170-181): `key + value + 20` for a `Value`, `key + 12` for a
`Tombstone`. -/
def approxContribution (k : List Nat) : ValueUpdate → Nat
  | .value v => k.length + v.length + 20
  | .tombstone => k.length + 12

/-- Sorted insertion into the entry list, replacing an existing binding
(`SkipMap::insert`, which returns the previous value). -/
def entriesInsert : List KVPair → List Nat → ValueUpdate → List KVPair
  | [], k, u => [(k, u)]
  | (a, b) :: t, k, u =>
    match keyCmp k a with
    | .lt => (k, u) :: (a, b) :: t
    | .eq => (k, u) :: t
    | .gt => (a, b) :: entriesInsert t k u

/-- Lookup in the entry list (`SkipMap::get`). -/
def entriesLookup : List KVPair → List Nat → Option ValueUpdate
  | [], _ => none
  | (a, b) :: t, k =>
    match keyCmp k a with
    | .eq => some b
    | _ => entriesLookup t k

/-- `MemTable::insert`: account the new entry's contribution, insert,
and subtract the replaced entry's contribution if the key was present.
Both sides use the (identical) key length of the inserted key.  On
`Nat` the subtraction cannot underflow here because the replaced
contribution was added to the accumulator earlier; the source uses
`u64` arithmetic. -/
def MemTable.insert (m : MemTable) (k : List Nat) (u : ValueUpdate) : MemTable :=
  let withNew := m.approxSize + approxContribution k u
  let old := entriesLookup m.entries k
  { entries := entriesInsert m.entries k u
    approxSize :=
      match old with
      | some o => withNew - approxContribution k o
      | none => withNew }

/-- `MemTable::get`. -/
def MemTable.get (m : MemTable) (k : List Nat) : Option ValueUpdate :=
  entriesLookup m.entries k

/-- `MemTable::is_empty` (via `len`). -/
def MemTable.isEmpty (m : MemTable) : Bool :=
  m.entries.isEmpty

/-- `MemTable::front`. -/
def MemTable.front (m : MemTable) : Option KVPair :=
  m.entries.head?

/-- `MemTable::back`. -/
def MemTable.back (m : MemTable) : Option KVPair :=
  m.entries.getLast?

/-- `MemTable::should_flush`: `approx_size ≥ 2 ^ 20` (1 MiB). -/
def MemTable.shouldFlush (m : MemTable) : Bool :=
  decide (m.approxSize ≥ 2 ^ 20)

/-- The memtable keeper (`memtable.rs` lines 36-129): the applied map
plus the batch of staged actions.  The staged actions are all
`Insert`s, so the batch is kept as a list of key/update pairs.  The WAL
file handle is not represented; the torn-batch behaviour of the WAL is
modelled separately (`recoverGo`). -/
structure MemTableKeeper where
  table : MemTable
  batch : List KVPair
deriving DecidableEq

/-- `MemTableKeeper::new`. -/
def MemTableKeeper.new : MemTableKeeper :=
  { table := MemTable.empty, batch := [] }

/-- `MemTableKeeper::insert`: stage an `Insert` action in the batch
(the applied map is untouched until a commit). -/
def MemTableKeeper.insert (mk : MemTableKeeper) (k : List Nat) (u : ValueUpdate) :
    MemTableKeeper :=
  { mk with batch := mk.batch ++ [(k, u)] }

/-- Modelled from the spec: `MemTableKeeper::commit` is `todo!()` in
`src/memtable.rs`; spec §4.B says it encodes the staged actions
followed by a `Commit` marker, writes and fsyncs them, then applies
them to the in-memory map.  The model applies the staged inserts in
order and clears the batch (the durable write always succeeds in this
failure-free model). -/
def MemTableKeeper.commit (mk : MemTableKeeper) : MemTableKeeper :=
  { table := mk.batch.foldl (fun t p => t.insert p.1 p.2) mk.table, batch := [] }

/-- `MemTableKeeper::get`: reads the applied map only; staged batch
entries are not visible. -/
def MemTableKeeper.get (mk : MemTableKeeper) (k : List Nat) : Option ValueUpdate :=
  mk.table.get k

/-- Modelled from the spec: `MemTableKeeper::reset` is absent from
`src/memtable.rs` (it is called by `SSTable::flush_to_level0`); spec
§4.B says it empties the memtable and truncates the log. -/
def MemTableKeeper.reset (mk : MemTableKeeper) : MemTableKeeper :=
  { mk with table := MemTable.empty }

/-- `MemTableKeeper::should_flush`. -/
def MemTableKeeper.shouldFlush (mk : MemTableKeeper) : Bool :=
  mk.table.shouldFlush

/-! ## SST wire format and loader (`sstable.rs`) -/

/-- `SPARSE_INDEX_INTERVAL` (`sstable.rs` line 26). -/
def sparseIndexInterval : Nat := 16

/-- `SSTABLE_FILE_SIZE = 2 ^ 21` (`sstable.rs` line 27). -/
def sstableFileSize : Nat := 2 ^ 21

/-- The byte-level core of `SSTable::load_by_id` (lines 129-156): read
the last 8 bytes as the big-endian index size, read that many bytes
immediately before as the index, decode it (`decode_from_slice` ignores
how many bytes of the slice the map consumed), and take everything
before the index verbatim as the records buffer.  `none` models every
I/O or decode error: a file shorter than 8 bytes (the `seek(-8)`
fails), an index size exceeding the space before the tail (the `u64`
subtraction wraps and the subsequent `read_exact` fails), or an index
that does not decode. -/
def sstLoad (file : List Nat) : Option (List Nat × List (List Nat × Nat)) :=
  if file.length < 8 then none
  else
    let isize := be64dec (file.drop (file.length - 8))
    if file.length - 8 < isize then none
    else
      let ioff := file.length - 8 - isize
      let ibuf := (file.drop ioff).take isize
      match decodeIdx ibuf with
      | none => none
      | some (idx, _) => some (file.take ioff, idx)

/-- An in-memory SST: records buffer, sparse index, owning id. -/
structure SSTable where
  buf : List Nat
  index : List (List Nat × Nat)
  id : SstId
deriving DecidableEq

/-- The on-disk store contents: SST id to file bytes. -/
abbrev Files := List (SstId × List Nat)

/-- Read a file (`File::open` by path `SST/level/id`). -/
def fileGet (fs : Files) (sid : SstId) : Option (List Nat) :=
  (fs.find? (fun p => p.1 == sid)).map (·.2)

/-- Create or overwrite a file. -/
def filePut (fs : Files) (sid : SstId) (content : List Nat) : Files :=
  (sid, content) :: fs.filter (fun p => !(p.1 == sid))

/-- Delete a file (`SSTable::remove`). -/
def fileErase (fs : Files) (sid : SstId) : Files :=
  fs.filter (fun p => !(p.1 == sid))

/-- `SSTable::load_by_id` against the modelled file system. -/
def loadById (fs : Files) (sid : SstId) : Option SSTable :=
  (fileGet fs sid).bind
    (fun bytes => (sstLoad bytes).map (fun pr => ⟨pr.1, pr.2, sid⟩))

/-- `SSTable::metadata` (lines 243-250): level, id, first and last
index key; `none` models the `unwrap` panic on an empty index. -/
def SSTable.metadata (s : SSTable) : Option (Nat × Nat × List Nat × List Nat) :=
  match s.index.head?, s.index.getLast? with
  | some f, some l => some (s.id.level, s.id.id, f.1, l.1)
  | _, _ => none

/-- The `Ord` of `SSTMetadata` (lines 75-93): two level-0 SSTs compare
by id descending; otherwise by level, then first key, then last key. -/
def metaCmp (a b : Nat × Nat × List Nat × List Nat) : Ordering :=
  if a.1 = 0 ∧ b.1 = 0 then natCmp b.2.1 a.2.1
  else
    match natCmp a.1 b.1 with
    | .eq =>
      match keyCmp a.2.2.1 b.2.2.1 with
      | .eq => keyCmp a.2.2.2 b.2.2.2
      | o => o
    | o => o

/-- The sparse-index walk of `SSTable::get` (lines 257-271): find the
consecutive index entries `(k, v), (k2, v2)` with `k ≤ key < k2` and
scan `[v, v2)`; at the final entry, `k ≤ key` gives `[v, buf.len)`; if
nothing matches, the initial window `[0, buf.len)` is kept. -/
def indexWindow (key : List Nat) (dflt : Nat × Nat) :
    List (List Nat × Nat) → Nat × Nat
  | [] => dflt
  | [(k, v)] => if keyLe k key then (v, dflt.2) else dflt
  | (k, v) :: (k2, v2) :: t =>
    if keyLe k key ∧ keyLt key k2 then (v, v2)
    else indexWindow key dflt ((k2, v2) :: t)

/-- The scan of `SSTable::get` over `iter_range(offset, offset_end)`:
decode forward from `cur`, stopping at `endPos` or the end of the
buffer; return the matching record's update, `none` (inner) when the
scan ends without a match, and `none` (outer) when a position fails to
decode (the `try_find` error path). -/
def sstFindGo : Nat → List Nat → Nat → Nat → List Nat →
    Option (Option ValueUpdate)
  | 0, _, _, _, _ => none
  | f + 1, buf, cur, endPos, key =>
    if cur ≥ endPos ∨ cur ≥ buf.length then some none
    else
      match decodeRecord (buf.drop cur) with
      | none => none
      | some ((k, u), c) =>
        if k = key then some (some u) else sstFindGo f buf (cur + c) endPos key

/-- `SSTable::get` (lines 252-280). -/
def SSTable.get (s : SSTable) (key : List Nat) : Option (Option ValueUpdate) :=
  let w := indexWindow key (0, s.buf.length) s.index
  sstFindGo (s.buf.length + 1) s.buf w.1 w.2 key

/-! ## SST building: the shared index/offset loop

Both `flush_to_level0_without_manifest` (lines 182-218) and the
per-file part of `SSTGroup::compact` (lines 494-549) stream records,
tracking the running offset, the previous record's encoded size and
key, and inserting a sparse-index entry for every
`SPARSE_INDEX_INTERVAL`-th record at its starting offset. -/

/-- The record loop: returns the index accumulated so far, the final
offset, and the last record's encoded size and key. -/
def buildLoop : List KVPair → Nat → Nat → Nat → List Nat →
    List (List Nat × Nat) → List (List Nat × Nat) × Nat × Nat × List Nat
  | [], _, offset, prevSize, prevKey, idx => (idx, offset, prevSize, prevKey)
  | (k, v) :: rest, i, offset, _, _, idx =>
    let e := recLen (k, v)
    let idx2 := if i % sparseIndexInterval = 0 then mapInsertBy keyCmp idx k offset else idx
    buildLoop rest (i + 1) (offset + e) e k idx2

/-- The sparse index written by `flush_to_level0_without_manifest`: the
front key at offset 0, one entry per 16 records, and the back key at
the offset where the last record starts (`offset - previous_size`; on
`Nat` this subtraction cannot underflow because `previous_size` is the
size of the record written last).  Empty input (which the source
refuses before reaching this point) yields an empty index. -/
def flushIndex (recs : List KVPair) : List (List Nat × Nat) :=
  match recs.head?, recs.getLast? with
  | some h, some lst =>
    match buildLoop recs 0 0 0 [] (mapInsertBy keyCmp [] h.1 0) with
    | (idx, off, ps, _) => mapInsertBy keyCmp idx lst.1 (off - ps)
  | _, _ => []

/-- The records section written by a flush: the concatenated record
encodings in memtable iteration order. -/
def flushRecordsBytes (recs : List KVPair) : List Nat :=
  (recs.map encodeRecord).flatten

/-- The records-section size of a flush output. -/
def flushRecordsSize (recs : List KVPair) : Nat :=
  (flushRecordsBytes recs).length

/-- A full SST file: records, encoded index, big-endian index length. -/
def sstFileBytes (recsBytes : List Nat) (idx : List (List Nat × Nat)) : List Nat :=
  recsBytes ++ encodeIdx idx ++ be64enc (encodeIdx idx).length

/-- The file written by `flush_to_level0_without_manifest`. -/
def flushFileBytes (recs : List KVPair) : List Nat :=
  sstFileBytes (flushRecordsBytes recs) (flushIndex recs)

/-! ## The k-way merge (`SSTGroupIter`, lines 559-603)

At each step all sub-iterators are peeked; the one holding the minimum
key is selected, ties resolved in favour of the earlier sub-iterator
(Rust's `min_by_key` keeps the first of equal minima); the selected
record is popped, and it is emitted unless its key equals the
previously emitted key (`previous_key`, seeded with the empty vector by
`SSTGroup::iter` and `GeneralCombinedIter::new`).  The same loop, minus
the `Result` wrapper, is `GeneralCombinedIter::next` (lines 651-676);
this function embeds both, on the decoded record lists of the
sub-iterators. -/

/-- Selection of the peeked minimum: index of the first sub-list whose
head key is minimal, together with that head record; exhausted
sub-lists are skipped; `none` when all are exhausted. -/
def best : List (List KVPair) → Option (Nat × KVPair)
  | [] => none
  | [] :: rest => (best rest).map (fun p => (p.1 + 1, p.2))
  | (kv :: _) :: rest =>
    match best rest with
    | none => some (0, kv)
    | some (j, kv2) =>
      if keyCmp kv2.1 kv.1 = .lt then some (j + 1, kv2) else some (0, kv)

/-- Popping the head of the `i`-th sub-list. -/
def popAt : List (List KVPair) → Nat → List (List KVPair)
  | [], _ => []
  | l :: rest, 0 => l.tail :: rest
  | l :: rest, n + 1 => l :: popAt rest n

/-- Total number of records remaining across the sub-lists. -/
def sizeSum (lists : List (List KVPair)) : Nat :=
  (lists.map List.length).sum

/-- The merge loop with fuel; each iteration pops one record, so fuel
`sizeSum lists` is always sufficient. -/
def mergedOutF : Nat → List (List KVPair) → List Nat → List KVPair
  | 0, _, _ => []
  | f + 1, lists, prev =>
    match best lists with
    | none => []
    | some (i, (k, v)) =>
      if k = prev then mergedOutF f (popAt lists i) prev
      else (k, v) :: mergedOutF f (popAt lists i) k

/-- The full output of the k-way merge, given the sub-iterators' record
lists in priority order and the initial `previous_key`. -/
def mergedOut (lists : List (List KVPair)) (prev : List Nat) : List KVPair :=
  mergedOutF (sizeSum lists) lists prev

/-! ## Compaction (`SSTGroup::compact`, lines 466-556) -/

/-- The tombstone-purge decision, evaluated once before the merge loop
(line 492): `dest_level >= manifest.max_level()` on the manifest as it
is when the compaction starts (the staged batch is not yet applied). -/
def shouldPurgeTombstone (m : Manifest) (dest : Nat) : Bool :=
  decide (dest ≥ m.maxLevel)

/-- The stream of records the compaction writes: the merged input with
tombstones skipped iff the purge decision holds (the `continue` at
lines 496-498). -/
def compactStream (m : Manifest) (dest : Nat) (recs : List KVPair) : List KVPair :=
  if shouldPurgeTombstone m dest then
    recs.filter (fun p => !(p.2 == ValueUpdate.tombstone))
  else recs

/-- The split of the record stream into output files: a record starts a
new file when `offset + encoded.len() > SSTABLE_FILE_SIZE` (line 501),
where `offset` is the byte size already written to the current file;
the current file is always finalized at the end, even when empty. -/
def compactSplitGo : List KVPair → List KVPair → Nat → List (List KVPair)
  | [], cur, _ => [cur.reverse]
  | r :: rs, cur, offset =>
    if offset + recLen r > sstableFileSize then
      cur.reverse :: compactSplitGo rs [r] (recLen r)
    else compactSplitGo rs (r :: cur) (offset + recLen r)

/-- The partition of a compaction's record stream into output files. -/
def compactSplit (recs : List KVPair) : List (List KVPair) :=
  compactSplitGo recs [] 0

/-- The sparse index of one compaction output file: the build loop
(per-file record counter and offset both reset at a rollover), then the
final `index.insert(previous_key, offset - previous_size)`.  For an
empty file (possible only as the very first output, when the first
record alone exceeds the size budget) this inserts the inherited
`previous_key`, which is the initial empty vector, at offset 0. -/
def compactIndex (file : List KVPair) : List (List Nat × Nat) :=
  match buildLoop file 0 0 0 [] [] with
  | (idx, off, ps, pk) => mapInsertBy keyCmp idx pk (off - ps)

/-- First key of a sparse index (`index.first_key_value().unwrap().0`;
the index of a finalized file is never empty, so the default is
unreachable). -/
def idxFirstKey (idx : List (List Nat × Nat)) : List Nat :=
  (idx.head?.map (·.1)).getD []

/-- Last key of a sparse index. -/
def idxLastKey (idx : List (List Nat × Nat)) : List Nat :=
  (idx.getLast?.map (·.1)).getD []

/-- The bytes of one compaction output file. -/
def compactFileBytes (file : List KVPair) : List Nat :=
  sstFileBytes (file.map encodeRecord).flatten (compactIndex file)

/-- The manifest actions a compaction pushes for its output files after
the initial `NewId(dest)`: an `Add` per file, with a further
`NewId(dest)` after every rollover. -/
def compactAddsGo (dest : Nat) : Nat → List (List KVPair) → List ManifestAction
  | _, [] => []
  | i, [f] => [.add ⟨dest, i⟩ (idxFirstKey (compactIndex f)) (idxLastKey (compactIndex f))]
  | i, f :: rest =>
    .add ⟨dest, i⟩ (idxFirstKey (compactIndex f)) (idxLastKey (compactIndex f)) ::
      .newId dest :: compactAddsGo dest (i + 1) rest

/-- All manifest actions `SSTGroup::compact` stages for one compaction:
the initial `NewId(dest_level)` (line 483), then the `Add`/`NewId`
interleaving of the output files (lines 509-521, 546-550).  No `Remove`
action appears anywhere in `compact` or its callers. -/
def compactActions (dest startId : Nat) (files : List (List KVPair)) :
    List ManifestAction :=
  .newId dest :: compactAddsGo dest startId files

/-! ## The manifest keeper (`manifest.rs` lines 26-275) -/

/-- The keeper: the applied manifest plus the staged action batch.  The
log file handle is not represented here; the log's byte-level recovery
behaviour is modelled by `recoverGo`. -/
structure ManifestKeeper where
  manifest : Manifest
  batch : List ManifestAction
deriving DecidableEq

/-- `ManifestKeeper::new` (the on-disk `CURRENT`/snapshot/log files are
not represented). -/
def ManifestKeeper.new : ManifestKeeper :=
  { manifest := Manifest.new, batch := [] }

/-- `ManifestKeeper::batch_start`: clear the staged batch. -/
def ManifestKeeper.batchStart (k : ManifestKeeper) : ManifestKeeper :=
  { k with batch := [] }

/-- `ManifestKeeper::new_id`: stage a `NewId` action. -/
def ManifestKeeper.pushNewId (k : ManifestKeeper) (level : Nat) : ManifestKeeper :=
  { k with batch := k.batch ++ [.newId level] }

/-- `ManifestKeeper::add`: stage an `Add` action. -/
def ManifestKeeper.pushAdd (k : ManifestKeeper) (sid : SstId) (fk lk : List Nat) :
    ManifestKeeper :=
  { k with batch := k.batch ++ [.add sid fk lk] }

/-- `ManifestKeeper::next_compact`: stage a `NextCompact` action. -/
def ManifestKeeper.pushNextCompact (k : ManifestKeeper) (level : Nat) : ManifestKeeper :=
  { k with batch := k.batch ++ [.nextCompact level] }

/-- `ManifestKeeper::commit` (lines 252-274): write the batch plus a
`Commit` marker to the log and fsync (the log bytes are not tracked
here), delete the on-disk file of every `Remove`d SST (a deletion
failure is only logged by the source), then apply the batch to the
in-memory manifest and clear it.  `none` models a panic while applying
(see `Manifest.executeAction`). -/
def keeperCommit (k : ManifestKeeper) (fs : Files) : Option (ManifestKeeper × Files) :=
  let fs2 := k.batch.foldl
    (fun acc a =>
      match a with
      | .remove sid => fileErase acc sid
      | _ => acc) fs
  (applyBatch k.manifest k.batch).map (fun m => ({ manifest := m, batch := [] }, fs2))

/-! ## SST groups (`sstable.rs` lines 435-464) -/

/-- A group of loaded SSTs, sorted into merge-priority order. -/
structure SSTGroup where
  sstables : List SSTable
deriving DecidableEq

/-- Stable insertion for the sort by `SSTMetadata` order (`Vec::sort`
is stable). -/
def insertMeta (p : SSTable × (Nat × Nat × List Nat × List Nat)) :
    List (SSTable × (Nat × Nat × List Nat × List Nat)) →
    List (SSTable × (Nat × Nat × List Nat × List Nat))
  | [] => [p]
  | q :: t => if metaCmp p.2 q.2 = .gt then q :: insertMeta p t else p :: q :: t

/-- `SSTGroup::new`: load every id and sort by the metadata order.
`none` models a load failure or the `unwrap` panic inside `metadata`
when a loaded index is empty. -/
def SSTGroup.new (fs : Files) (ids : List SstId) : Option SSTGroup :=
  (ids.mapM (loadById fs)).bind
    (fun (ssts : List SSTable) =>
      (ssts.mapM (fun s => (SSTable.metadata s).map (fun md => (s, md)))).map
        (fun l => ⟨(l.foldr insertMeta []).map (·.1)⟩))

/-- The scan of `SSTGroup::get` (lines 450-457): first hit wins;
a table's error is propagated. -/
def groupGetGo : List SSTable → List Nat → Option (Option ValueUpdate)
  | [], _ => some none
  | s :: t, key =>
    match s.get key with
    | none => none
    | some (some u) => some (some u)
    | some none => groupGetGo t key

/-- `SSTGroup::get`. -/
def SSTGroup.get (g : SSTGroup) (key : List Nat) : Option (Option ValueUpdate) :=
  groupGetGo g.sstables key

/-- `SSTGroup::compact` (lines 466-556), at the level of the keeper and
the modelled file system: allocate the first output id, merge the
sub-iterators (a record decode error anywhere aborts with an error),
apply the purge filter, split into output files, write them, stage the
`NewId`/`Add` actions, and commit the batch.  `none` models any error
or panic on the way; in that case no commit happened (partially written
output files of the real code then remain as orphans, which this model
does not track through the error path). -/
def SSTGroup.compact (g : SSTGroup) (dest : Nat) (k : ManifestKeeper) (fs : Files) :
    Option (ManifestKeeper × Files) :=
  match g.sstables.mapM (fun s => decodeRecords s.buf) with
  | none => none
  | some lists =>
    let merged := mergedOut lists []
    let stream := compactStream k.manifest dest merged
    let outFiles := compactSplit stream
    let startId := (k.manifest.latestSstId dest).id
    let acts := compactActions dest startId outFiles
    let fs2 := (List.range outFiles.length).foldl
      (fun acc j =>
        match outFiles.get? j with
        | some f => filePut acc ⟨dest, startId + j⟩ (compactFileBytes f)
        | none => acc) fs
    keeperCommit { k with batch := k.batch ++ acts } fs2

/-! ## The store façade (`store.rs`) -/

/-- The store: memtable keeper, manifest keeper, bloom filter, and the
modelled on-disk SST files.  `GrowableBloom` is modelled as the exact
set of keys ever passed to `bloom.insert`; the real filter has no false
negatives, so on every inserted key the model and the filter agree that
`contains` is true. -/
structure Store where
  mem : MemTableKeeper
  man : ManifestKeeper
  bloom : List (List Nat)
  files : Files
deriving DecidableEq

/-- `Store::new` on a fresh directory. -/
def Store.new : Store :=
  { mem := MemTableKeeper.new, man := ManifestKeeper.new, bloom := [], files := [] }

/-- `SSTable::flush_to_level0` (lines 220-241) at the store level:
start a manifest batch, take the level-0 id, stage `NewId(0)`, write
the SST file from the memtable contents (refusing an empty memtable),
stage the `Add` with the memtable's front and back keys, commit, and
reset the memtable. -/
def flushToLevel0 (st : Store) : Option Store :=
  let k1 := st.man.batchStart
  let sid := k1.manifest.latestSstId 0
  let k2 := k1.pushNewId 0
  if st.mem.table.isEmpty then none
  else
    let recs := st.mem.table.entries
    let fs2 := filePut st.files ⟨0, sid.id⟩ (flushFileBytes recs)
    match st.mem.table.front, st.mem.table.back with
    | some f, some b =>
      match keeperCommit (k2.pushAdd sid f.1 b.1) fs2 with
      | none => none
      | some (k3, fs3) => some { st with mem := st.mem.reset, man := k3, files := fs3 }
    | _, _ => none

/-- `Manifest::level_byte_size` (lines 435-450) against the modelled
file system; `none` models a missing file's metadata error. -/
def levelByteSize (m : Manifest) (level : Nat) (fs : Files) : Option Nat :=
  match mapLookupBy natCmp m.activeSsts level with
  | none => some 0
  | some ids =>
    (ids.mapM (fun i => (fileGet fs ⟨level, i⟩).map List.length)).map List.sum

/-- `Store::try_level_compact` (lines 95-134).  The explicit fuel
bounds the `level + 1` recursion; the source recursion terminates
because the data volume is finite and each level's byte threshold grows
tenfold, and every run evaluated in this file stays far below the fuel;
fuel exhaustion is modelled as an error. -/
def tryLevelCompact : Nat → Nat → Store → Option Store
  | 0, _, _ => none
  | fuel + 1, level, st =>
    let levelIds := st.man.manifest.getSstByLevel level
    if levelIds.isEmpty then some st
    else if level = 0 then
      if levelIds.length ≥ 4 then
        let k1 := st.man.batchStart
        match levelIds.mapM (fun sid => st.man.manifest.getOverlappings sid) with
        | none => none
        | some ovs =>
          match SSTGroup.new st.files (ovs.flatten ++ levelIds) with
          | none => none
          | some g =>
            match g.compact 1 k1 st.files with
            | none => none
            | some (k2, fs2) => tryLevelCompact fuel 1 { st with man := k2, files := fs2 }
      else some st
    else
      match levelByteSize st.man.manifest level st.files with
      | none => none
      | some sz =>
        if sz > 10 ^ level * 2 ^ 20 then
          let k1 := st.man.batchStart
          match k1.manifest.latestCompactSst level with
          | none => none
          | some rotate =>
            let k2 := k1.pushNextCompact level
            match k2.manifest.getOverlappings rotate with
            | none => none
            | some ovs =>
              match SSTGroup.new st.files (ovs ++ [rotate]) with
              | none => none
              | some g =>
                match g.compact (level + 1) k2 st.files with
                | none => none
                | some (k3, fs2) => tryLevelCompact fuel (level + 1) { st with man := k3, files := fs2 }
        else some st

/-- `Store::checked_flush` (lines 75-84): flush and compact when the
memtable reports `should_flush`. -/
def Store.checkedFlush (st : Store) : Option Store :=
  if st.mem.shouldFlush then (flushToLevel0 st).bind (tryLevelCompact 32 0)
  else some st

/-- `Store::insert` (lines 38-44): record the key in the bloom filter,
stage the `Value` update, commit the memtable batch, then
`checked_flush`. -/
def Store.insert (st : Store) (k v : List Nat) : Option Store :=
  Store.checkedFlush
    { st with bloom := k :: st.bloom, mem := (st.mem.insert k (.value v)).commit }

/-- `Store::remove` (lines 69-73): stage the `Tombstone` update, then
`checked_flush`.  Unlike `insert`, the source calls neither
`bloom.insert` nor `memtable.commit` here. -/
def Store.remove (st : Store) (k : List Nat) : Option Store :=
  Store.checkedFlush { st with mem := st.mem.insert k .tombstone }

/-- `Store::get` (lines 46-67): bloom-filter shortcut, then the applied
memtable, then the live SSTs covering the key.  The inner `Option` is
the lookup result; the outer `none` models the panic paths (the
`expect` on a failed SST load, and an SST decode error — the source
matches on `SSTGroup::get`'s `Result` as if it were unwrapped). -/
def Store.get (st : Store) (k : List Nat) : Option (Option (List Nat)) :=
  if !(st.bloom.contains k) then some none
  else
    match st.mem.get k with
    | some (.value v) => some (some v)
    | some .tombstone => some none
    | none =>
      match st.man.manifest.getSstByKey k with
      | none => none
      | some ids =>
        match SSTGroup.new st.files ids with
        | none => none
        | some g =>
          match g.get k with
          | none => none
          | some (some (.value v)) => some (some v)
          | some (some .tombstone) => some none
          | some none => some none

/-! ## Auxiliary predicates and derived forms used by the theorems -/

/-- Strict ascending key order on an association list over byte-string
keys (records of an SST, entries of a sparse index). -/
def entriesSorted {β : Type} (l : List (List Nat × β)) : Prop :=
  List.Pairwise (fun p q => keyLt p.1 q.1) l

instance {β : Type} [DecidableEq β] (l : List (List Nat × β)) :
    Decidable (entriesSorted l) := by
  unfold entriesSorted; infer_instance

/-- Strict ascending order on the keys of a `Nat`-keyed table (the
`BTreeMap` invariant of the manifest's per-level maps). -/
def levelsSorted {β : Type} (l : List (Nat × β)) : Prop :=
  List.Pairwise (fun p q => p.1 < q.1) l

instance {β : Type} [DecidableEq β] (l : List (Nat × β)) :
    Decidable (levelsSorted l) := by
  unfold levelsSorted; infer_instance

/-- The sparse-index entries contributed by the interval rule of
`buildLoop`: the `j`-th record's key at its offset whenever the running
record counter `i + j` is divisible by the interval. -/
def idxEntries : List KVPair → Nat → Nat → List (List Nat × Nat)
  | [], _, _ => []
  | (k, v) :: rest, i, off =>
    (if i % sparseIndexInterval = 0 then [(k, off)] else []) ++
      idxEntries rest (i + 1) (off + recLen (k, v))

/-! # Lemmas and theorems -/

/-! ## Ordering facts -/

theorem natCmp_eq_iff {a b : Nat} : natCmp a b = .eq ↔ a = b := by
  unfold natCmp; split_ifs <;> constructor <;> intro h <;> first | omega | simp_all

theorem natCmp_lt_iff {a b : Nat} : natCmp a b = .lt ↔ a < b := by
  unfold natCmp; split_ifs <;> constructor <;> intro h <;> first | omega | simp_all

theorem natCmp_gt_iff {a b : Nat} : natCmp a b = .gt ↔ b < a := by
  unfold natCmp; split_ifs <;> constructor <;> intro h <;> first | omega | simp_all

theorem natCmp_self (a : Nat) : natCmp a a = .eq := by
  unfold natCmp; simp

theorem keyCmp_self (a : List Nat) : keyCmp a a = .eq := by
  induction a with
  | nil => rfl
  | cons x t ih => simp only [keyCmp, natCmp_self, ih]

theorem keyCmp_eq_iff {a b : List Nat} : keyCmp a b = .eq ↔ a = b := by
  induction a generalizing b with
  | nil => cases b <;> simp [keyCmp]
  | cons x t ih =>
    cases b with
    | nil => simp [keyCmp]
    | cons y s =>
      simp only [keyCmp]
      rcases h : natCmp x y with h' | h' | h'
      · have hxy : x < y := natCmp_lt_iff.mp h
        constructor
        · intro hc; cases hc
        · intro hc
          have : x = y := by injection hc
          omega
      · have hxy : x = y := natCmp_eq_iff.mp h
        subst hxy
        rw [ih]
        constructor
        · intro hc; rw [hc]
        · intro hc; injection hc
      · have hxy : y < x := natCmp_gt_iff.mp h
        constructor
        · intro hc; cases hc
        · intro hc
          have : x = y := by injection hc
          omega

theorem keyCmp_gt_iff {a b : List Nat} : keyCmp a b = .gt ↔ keyCmp b a = .lt := by
  induction a generalizing b with
  | nil => cases b <;> simp [keyCmp]
  | cons x t ih =>
    cases b with
    | nil => simp [keyCmp]
    | cons y s =>
      simp only [keyCmp]
      rcases h : natCmp x y with h' | h' | h'
      · have hxy : x < y := natCmp_lt_iff.mp h
        have h2 : natCmp y x = .gt := natCmp_gt_iff.mpr hxy
        rw [h2]
        simp
      · have hxy : x = y := natCmp_eq_iff.mp h
        subst hxy
        rw [natCmp_self]
        exact ih
      · have hxy : y < x := natCmp_gt_iff.mp h
        have h2 : natCmp y x = .lt := natCmp_lt_iff.mpr hxy
        rw [h2]
        simp

theorem keyLt_trans {a b c : List Nat} (h1 : keyLt a b) (h2 : keyLt b c) : keyLt a c := by
  unfold keyLt at *
  induction a generalizing b c with
  | nil =>
    cases c with
    | nil =>
      cases b with
      | nil => exact h1
      | cons y s => simp [keyCmp] at h2
    | cons z u => rfl
  | cons x t ih =>
    cases b with
    | nil => simp [keyCmp] at h1
    | cons y s =>
      cases c with
      | nil => simp [keyCmp] at h2
      | cons z u =>
        simp only [keyCmp] at h1 h2 ⊢
        rcases hxy : natCmp x y with h' | h' | h' <;> rw [hxy] at h1 <;>
          rcases hyz : natCmp y z with h'' | h'' | h'' <;> rw [hyz] at h2 <;>
          try simp_all
        · have hx : x < y := natCmp_lt_iff.mp hxy
          have hy : y < z := natCmp_lt_iff.mp hyz
          have : natCmp x z = .lt := natCmp_lt_iff.mpr (by omega)
          rw [this]
        · have hy : y = z := natCmp_eq_iff.mp hyz
          subst hy
          rw [hxy]
        · have hx : x = y := natCmp_eq_iff.mp hxy
          subst hx
          rw [hyz]
        · have hx : x = y := natCmp_eq_iff.mp hxy
          subst hx
          rw [hyz] at *
          exact ih h1 h2

theorem keyLt_irrefl (a : List Nat) : ¬ keyLt a a := by
  unfold keyLt
  rw [keyCmp_self]
  simp

theorem keyLe_iff {a b : List Nat} : keyLe a b ↔ keyLt a b ∨ a = b := by
  unfold keyLe keyLt
  rcases h : keyCmp a b with h' | h' | h' <;> simp_all
  · exact keyCmp_eq_iff.mp h
  · intro hx
    subst hx
    rw [keyCmp_self] at h
    cases h

theorem keyLe_refl (a : List Nat) : keyLe a a := keyLe_iff.mpr (Or.inr rfl)

theorem keyLt_le {a b : List Nat} (h : keyLt a b) : keyLe a b := keyLe_iff.mpr (Or.inl h)

theorem keyLe_trans {a b c : List Nat} (h1 : keyLe a b) (h2 : keyLe b c) : keyLe a c := by
  rcases keyLe_iff.mp h1 with h | h
  · rcases keyLe_iff.mp h2 with h' | h'
    · exact keyLt_le (keyLt_trans h h')
    · subst h'; exact keyLt_le h
  · subst h; exact h2

theorem keyLe_lt_trans {a b c : List Nat} (h1 : keyLe a b) (h2 : keyLt b c) : keyLt a c := by
  rcases keyLe_iff.mp h1 with h | h
  · exact keyLt_trans h h2
  · subst h; exact h2

theorem keyLt_le_trans {a b c : List Nat} (h1 : keyLt a b) (h2 : keyLe b c) : keyLt a c := by
  rcases keyLe_iff.mp h2 with h | h
  · exact keyLt_trans h1 h
  · subst h; exact h1

theorem keyLe_ne_lt {a b : List Nat} (h1 : keyLe a b) (h2 : a ≠ b) : keyLt a b := by
  rcases keyLe_iff.mp h1 with h | h
  · exact h
  · exact absurd h h2

theorem keyLt_ne {a b : List Nat} (h : keyLt a b) : a ≠ b := by
  intro hx
  subst hx
  exact keyLt_irrefl a h

theorem nil_keyLe (a : List Nat) : keyLe [] a := by
  cases a <;> simp [keyLe, keyCmp]

theorem not_keyLt_iff {a b : List Nat} : ¬ keyLt a b ↔ keyLe b a := by
  unfold keyLt keyLe
  constructor
  · intro h hgt
    exact h (keyCmp_gt_iff.mp hgt)
  · intro h hlt
    exact h (keyCmp_gt_iff.mpr hlt)

theorem keyCmp_lt_of_keyLt {a b : List Nat} (h : keyLt a b) : keyCmp a b = .lt := h

theorem keyCmp_gt_of_keyLt {a b : List Nat} (h : keyLt b a) : keyCmp a b = .gt :=
  keyCmp_gt_iff.mpr h


/-! ## Association-list map lemmas -/

theorem mapLookupBy_cons {α β : Type} (cmp : α → α → Ordering) (a : α) (b : β)
    (t : List (α × β)) (k : α) :
    mapLookupBy cmp ((a, b) :: t) k =
      if cmp k a = .eq then some b else mapLookupBy cmp t k := by
  simp only [mapLookupBy]
  rcases h : cmp k a with h' | h' | h' <;> simp [h]

theorem mapLookupBy_insert {α β : Type} [DecidableEq α] (cmp : α → α → Ordering)
    (heq : ∀ x y : α, cmp x y = .eq ↔ x = y) (m : List (α × β)) (k k' : α) (v : β) :
    mapLookupBy cmp (mapInsertBy cmp m k v) k' =
      if k' = k then some v else mapLookupBy cmp m k' := by
  induction m with
  | nil =>
    show mapLookupBy cmp [(k, v)] k' = _
    rw [mapLookupBy_cons]
    by_cases hk : k' = k
    · rw [if_pos ((heq k' k).mpr hk), if_pos hk]
    · rw [if_neg (fun hx => hk ((heq k' k).mp hx)), if_neg hk]
  | cons e t ih =>
    obtain ⟨a, b⟩ := e
    rcases h : cmp k a with h' | h' | h'
    · simp only [mapInsertBy, h]
      rw [mapLookupBy_cons]
      by_cases hk : k' = k
      · rw [if_pos ((heq k' k).mpr hk), if_pos hk]
      · rw [if_neg (fun hx => hk ((heq k' k).mp hx)), if_neg hk]
    · have hka : k = a := (heq k a).mp h
      simp only [mapInsertBy, h]
      rw [mapLookupBy_cons, mapLookupBy_cons]
      by_cases hk : k' = k
      · rw [if_pos ((heq k' k).mpr hk), if_pos hk]
      · rw [if_neg (fun hx => hk ((heq k' k).mp hx)), if_neg hk]
        have hne : cmp k' a ≠ .eq := fun hx => hk (((heq k' a).mp hx).trans hka.symm)
        rw [if_neg hne]
    · simp only [mapInsertBy, h]
      rw [mapLookupBy_cons, mapLookupBy_cons, ih]
      by_cases hk2 : cmp k' a = .eq
      · have hk'a : k' = a := (heq k' a).mp hk2
        have hne : k' ≠ k := by
          intro hx
          have hkeq : k = a := hx ▸ hk'a
          rw [(heq k a).mpr hkeq] at h
          cases h
        rw [if_pos hk2, if_neg hne, if_pos hk2]
      · rw [if_neg hk2, if_neg hk2]

theorem mapLookupBy_foldl_insert {α β : Type} [DecidableEq α] (cmp : α → α → Ordering)
    (heq : ∀ x y : α, cmp x y = .eq ↔ x = y) :
    ∀ (es : List (α × β)) (m : List (α × β)) (k : α) (o : β),
      ((k, o) ∈ es ∨ mapLookupBy cmp m k = some o) →
      (∀ p ∈ es, p.1 = k → p.2 = o) →
      mapLookupBy cmp (es.foldl (fun acc p => mapInsertBy cmp acc p.1 p.2) m) k = some o := by
  intro es
  induction es with
  | nil =>
    intro m k o hin _
    simp only [List.foldl_nil]
    rcases hin with h | h
    · cases h
    · exact h
  | cons e t ih =>
    intro m k o hin hco
    simp only [List.foldl_cons]
    by_cases hek : e.1 = k
    · have heo : e.2 = o := hco e (List.mem_cons_self e t) hek
      apply ih
      · right
        rw [mapLookupBy_insert cmp heq]
        rw [if_pos hek.symm, heo]
      · intro p hp
        exact hco p (List.mem_cons_of_mem e hp)
    · apply ih
      · rcases hin with h | h
        · rcases List.mem_cons.mp h with h' | h'
          · exact absurd (congrArg Prod.fst h').symm hek
          · exact Or.inl h'
        · right
          rw [mapLookupBy_insert cmp heq, if_neg (fun hx => hek hx.symm)]
          exact h
      · intro p hp
        exact hco p (List.mem_cons_of_mem e hp)

theorem mapInsertBy_append {α β : Type} (cmp : α → α → Ordering) :
    ∀ (m : List (α × β)) (k : α) (v : β), (∀ p ∈ m, cmp k p.1 = .gt) →
      mapInsertBy cmp m k v = m ++ [(k, v)] := by
  intro m
  induction m with
  | nil =>
    intro k v _
    rfl
  | cons e t ih =>
    intro k v h
    obtain ⟨a, b⟩ := e
    have ha : cmp k a = .gt := h (a, b) (List.mem_cons_self _ _)
    simp only [mapInsertBy, ha]
    rw [ih k v (fun p hp => h p (List.mem_cons_of_mem _ hp))]
    rfl

theorem foldl_insert_app {α β : Type} (cmp : α → α → Ordering) :
    ∀ (l m : List (α × β)),
      (∀ p ∈ m, ∀ q ∈ l, cmp q.1 p.1 = .gt) →
      List.Pairwise (fun p q => cmp q.1 p.1 = .gt) l →
      l.foldl (fun acc p => mapInsertBy cmp acc p.1 p.2) m = m ++ l := by
  intro l
  induction l with
  | nil =>
    intro m _ _
    simp
  | cons e t ih =>
    intro m hml hp
    simp only [List.foldl_cons]
    rw [mapInsertBy_append cmp m e.1 e.2 (fun p hp' => hml p hp' e (List.mem_cons_self _ _))]
    rw [ih (m ++ [(e.1, e.2)])]
    · simp
    · intro p hp' q hq
      rcases List.mem_append.mp hp' with h | h
      · exact hml p h q (List.mem_cons_of_mem _ hq)
      · have : p = (e.1, e.2) := List.mem_singleton.mp h
        subst this
        exact (List.pairwise_cons.mp hp).1 q hq
    · exact (List.pairwise_cons.mp hp).2

/-! ## Codec roundtrip lemmas -/

theorem decodeU64_encodeU64 (n : Nat) (h : n < 2 ^ 64) (r : List Nat) :
    decodeU64 (encodeU64 n ++ r) = some (n, (encodeU64 n).length) := by
  unfold encodeU64
  split_ifs with h1 h2 h3
  · simp only [List.cons_append, List.nil_append, decodeU64, if_pos h1, List.length_cons,
      List.length_nil]
  · simp only [List.cons_append, List.nil_append, decodeU64]
    norm_num [Option.some.injEq, Prod.mk.injEq]
    omega
  · simp only [List.cons_append, List.nil_append, decodeU64]
    norm_num [Option.some.injEq, Prod.mk.injEq]
    omega
  · simp only [List.cons_append, List.nil_append, decodeU64]
    norm_num [Option.some.injEq, Prod.mk.injEq]
    omega

theorem decodeU32_single (d : Nat) (h : d < 251) (r : List Nat) :
    decodeU32 (d :: r) = some (d, 1) := by
  simp only [decodeU32, if_pos h]

theorem encodeU64_length_pos (n : Nat) : 0 < (encodeU64 n).length := by
  unfold encodeU64
  split_ifs <;> simp

theorem be64dec_be64enc (n : Nat) (h : n < 2 ^ 64) : be64dec (be64enc n) = n := by
  simp only [be64enc, be64dec, List.foldl_cons, List.foldl_nil]
  omega

theorem decodeBytes_encodeBytes (v : List Nat) (h : v.length < 2 ^ 64) (r : List Nat) :
    decodeBytes (encodeBytes v ++ r) = some (v, (encodeBytes v).length) := by
  unfold decodeBytes encodeBytes
  rw [List.append_assoc, decodeU64_encodeU64 v.length h]
  simp only
  rw [List.drop_append_of_le_length (le_refl _), List.drop_length, List.nil_append]
  rw [if_pos (by simp)]
  rw [List.take_append_of_le_length (le_refl _), List.take_length]
  simp [Nat.add_comm]

theorem drop_append_exact {α : Type} (l r : List α) : (l ++ r).drop l.length = r := by
  rw [List.drop_append_of_le_length (le_refl _), List.drop_length, List.nil_append]

theorem drop_cons_append {α : Type} (a : α) (A R : List α) (n : Nat)
    (hn : n = A.length + 1) : (a :: (A ++ R)).drop n = R := by
  subst hn
  rw [List.drop_succ_cons]
  exact drop_append_exact A R

theorem drop_cons_append2 {α : Type} (a : α) (A B R : List α) (n : Nat)
    (hn : n = A.length + B.length + 1) : (a :: (A ++ (B ++ R))).drop n = R := by
  subst hn
  rw [List.drop_succ_cons, ← List.append_assoc, ← List.length_append]
  exact drop_append_exact _ R

theorem decodeVU_encodeVU (u : ValueUpdate)
    (h : ∀ v, u = .value v → v.length < 2 ^ 64) (r : List Nat) :
    decodeVU (encodeVU u ++ r) = some (u, (encodeVU u).length) := by
  cases u with
  | tombstone =>
    simp only [encodeVU, decodeVU, List.cons_append, List.nil_append]
    rw [decodeU32_single 0 (by norm_num)]
    rfl
  | value v =>
    have hv : v.length < 2 ^ 64 := h v rfl
    simp only [encodeVU, decodeVU, List.cons_append, List.nil_append, List.append_assoc]
    rw [decodeU32_single 1 (by norm_num)]
    simp only [List.drop_succ_cons, List.drop_zero]
    rw [decodeBytes_encodeBytes v hv r]
    simp [Nat.add_comm]

theorem decodeRecord_encodeRecord (p : KVPair)
    (hk : p.1.length < 2 ^ 64)
    (hv : ∀ v, p.2 = .value v → v.length < 2 ^ 64) (r : List Nat) :
    decodeRecord (encodeRecord p ++ r) = some (p, recLen p) := by
  obtain ⟨k, u⟩ := p
  simp only [encodeRecord, recLen, decodeRecord, List.append_assoc]
  rw [decodeBytes_encodeBytes k hk]
  simp only [drop_append_exact]
  rw [decodeVU_encodeVU u hv r]
  simp only [encodeRecord, List.length_append, Option.some.injEq, Prod.mk.injEq, true_and]

theorem decodeSstId_encodeSstId (s : SstId) (h1 : s.level < 2 ^ 64) (h2 : s.id < 2 ^ 64)
    (r : List Nat) :
    decodeSstId (encodeSstId s ++ r) = some (s, (encodeSstId s).length) := by
  simp only [encodeSstId, decodeSstId, List.append_assoc]
  rw [decodeU64_encodeU64 s.level h1]
  simp only [drop_append_exact]
  rw [decodeU64_encodeU64 s.id h2]
  simp only [List.length_append, Option.some.injEq, Prod.mk.injEq, true_and]

theorem decodeAction_encodeAction (a : ManifestAction) (h : a.valid) (r : List Nat) :
    decodeAction (encodeAction a ++ r) = some (a, (encodeAction a).length) := by
  cases a with
  | commit =>
    simp only [encodeAction, decodeAction, List.cons_append, List.nil_append]
    rw [decodeU32_single 0 (by norm_num)]
    rfl
  | add s fk lk =>
    obtain ⟨hl, hi, hf, hk⟩ := h
    simp only [encodeAction, decodeAction, List.cons_append, List.nil_append, List.append_assoc]
    rw [decodeU32_single 1 (by norm_num)]
    simp only [List.drop_succ_cons, List.drop_zero, decodeSstId_encodeSstId s hl hi]
    rw [drop_cons_append 1 (encodeSstId s) (encodeBytes fk ++ (encodeBytes lk ++ r)) _ (by omega)]
    simp only [decodeBytes_encodeBytes fk hf]
    rw [drop_cons_append2 1 (encodeSstId s) (encodeBytes fk) (encodeBytes lk ++ r) _ (by omega)]
    simp only [decodeBytes_encodeBytes lk hk]
    simp only [Option.some.injEq, Prod.mk.injEq, List.length_cons, List.length_append,
      List.length_nil, true_and]
    omega
  | remove s =>
    obtain ⟨hl, hi⟩ := h
    simp only [encodeAction, decodeAction, List.cons_append, List.nil_append, List.append_assoc]
    rw [decodeU32_single 2 (by norm_num)]
    simp only [List.drop_succ_cons, List.drop_zero, decodeSstId_encodeSstId s hl hi]
    simp only [Option.some.injEq, Prod.mk.injEq, List.length_cons, List.length_append,
      List.length_nil, true_and]
    omega
  | newId lv =>
    simp only [encodeAction, decodeAction, List.cons_append, List.nil_append]
    rw [decodeU32_single 3 (by norm_num)]
    simp only [List.drop_succ_cons, List.drop_zero]
    rw [decodeU64_encodeU64 lv h]
    simp only [Option.some.injEq, Prod.mk.injEq, List.length_cons, true_and]
    omega
  | nextCompact lv =>
    simp only [encodeAction, decodeAction, List.cons_append, List.nil_append]
    rw [decodeU32_single 4 (by norm_num)]
    simp only [List.drop_succ_cons, List.drop_zero]
    rw [decodeU64_encodeU64 lv h]
    simp only [Option.some.injEq, Prod.mk.injEq, List.length_cons, true_and]
    omega

theorem drop_append_exact2 {α : Type} (A B R : List α) :
    (A ++ (B ++ R)).drop (A.length + B.length) = R := by
  rw [← List.append_assoc, ← List.length_append]
  exact drop_append_exact _ R

theorem decodeIdxPairs_encode :
    ∀ (l : List (List Nat × Nat)) (r : List Nat),
      (∀ p ∈ l, p.1.length < 2 ^ 64 ∧ p.2 < 2 ^ 64) →
      decodeIdxPairs l.length
          ((l.map (fun p => encodeBytes p.1 ++ encodeU64 p.2)).flatten ++ r) =
        some (l, ((l.map (fun p => encodeBytes p.1 ++ encodeU64 p.2)).flatten).length) := by
  intro l
  induction l with
  | nil =>
    intro r _
    simp [decodeIdxPairs]
  | cons e t ih =>
    intro r hv
    obtain ⟨hk, ho⟩ := hv e (List.mem_cons_self e t)
    simp only [List.map_cons, List.flatten_cons, List.length_cons, decodeIdxPairs,
      List.append_assoc]
    rw [decodeBytes_encodeBytes e.1 hk]
    simp only [drop_append_exact]
    rw [decodeU64_encodeU64 e.2 ho]
    simp only [drop_append_exact2]
    rw [ih r (fun p hp => hv p (List.mem_cons_of_mem e hp))]
    simp only [Option.some.injEq, Prod.mk.injEq, List.length_append, true_and]
    omega

theorem decodeIdx_encodeIdx (l : List (List Nat × Nat)) (r : List Nat)
    (hlen : l.length < 2 ^ 64)
    (hv : ∀ p ∈ l, p.1.length < 2 ^ 64 ∧ p.2 < 2 ^ 64)
    (hs : entriesSorted l) :
    decodeIdx (encodeIdx l ++ r) = some (l, (encodeIdx l).length) := by
  have hfold : List.foldl (fun m p => mapInsertBy keyCmp m p.1 p.2) [] l = l := by
    have hh := foldl_insert_app keyCmp l [] (by intro p hp; cases hp)
      (List.Pairwise.imp (fun h => keyCmp_gt_iff.mpr h) hs)
    simpa using hh
  simp only [encodeIdx, decodeIdx, List.append_assoc]
  rw [decodeU64_encodeU64 l.length hlen]
  simp only [drop_append_exact]
  rw [decodeIdxPairs_encode l r hv]
  simp only [hfold, Option.some.injEq, Prod.mk.injEq, List.length_append, true_and]

theorem recoverGo_cons (f : Nat) (b : Nat) (bs : List Nat) (consumed : Nat)
    (batch applied : List ManifestAction) :
    recoverGo (f + 1) (b :: bs) consumed batch applied =
      match decodeAction (b :: bs) with
      | none => (applied, consumed)
      | some (a, size) =>
        match a with
        | .commit => recoverGo f ((b :: bs).drop size) (consumed + size) [] (applied ++ batch)
        | _ => recoverGo f ((b :: bs).drop size) (consumed + size) (batch ++ [a]) applied :=
  rfl

theorem encodeAction_ne_nil (a : ManifestAction) : encodeAction a ≠ [] := by
  cases a <;> simp [encodeAction]

theorem recoverGo_step (f : Nat) (a : ManifestAction) (X : List Nat)
    (consumed : Nat) (batch applied : List ManifestAction) (ha : a.valid) :
    recoverGo (f + 1) (encodeAction a ++ X) consumed batch applied =
      if a = .commit then
        recoverGo f X (consumed + (encodeAction a).length) [] (applied ++ batch)
      else
        recoverGo f X (consumed + (encodeAction a).length) (batch ++ [a]) applied := by
  have hdec := decodeAction_encodeAction a ha X
  obtain ⟨hd, tl, henc⟩ : ∃ hd tl, encodeAction a = hd :: tl := by
    cases hc : encodeAction a with
    | nil => exact absurd hc (encodeAction_ne_nil a)
    | cons x y => exact ⟨x, y, rfl⟩
  rw [henc] at hdec ⊢
  simp only [List.cons_append] at hdec ⊢
  rw [recoverGo_cons, hdec]
  have hdrop : List.drop (hd :: tl).length (hd :: (tl ++ X)) = X :=
    drop_cons_append hd tl X _ (by simp)
  cases a with
  | commit =>
    simp only [hdrop]
    rfl
  | add s fk lk =>
    simp only [hdrop]
    rfl
  | remove s =>
    simp only [hdrop]
    rfl
  | newId lv =>
    simp only [hdrop]
    rfl
  | nextCompact lv =>
    simp only [hdrop]
    rfl

theorem recoverGo_encoded :
    ∀ (acts : List ManifestAction) (t : List Nat) (batch applied : List ManifestAction)
      (consumed f : Nat),
      (∀ a ∈ acts, a.valid) → decodeAction t = none →
      (encodeActions acts ++ t).length < f →
      recoverGo f (encodeActions acts ++ t) consumed batch applied =
        (committedOf acts batch applied, consumed + (encodeActions acts).length) := by
  intro acts
  induction acts with
  | nil =>
    intro t batch applied consumed f _ ht hf
    simp only [encodeActions, List.map_nil, List.flatten_nil, List.nil_append,
      List.length_nil, Nat.add_zero] at *
    cases t with
    | nil =>
      cases f with
      | zero => omega
      | succ f2 => rfl
    | cons b bs =>
      cases f with
      | zero => simp at hf
      | succ f2 =>
        rw [recoverGo_cons, ht]
        rfl
  | cons a rest ih =>
    intro t batch applied consumed f hv ht hf
    have hbuf : encodeActions (a :: rest) ++ t = encodeAction a ++ (encodeActions rest ++ t) := by
      simp [encodeActions, List.append_assoc]
    rw [hbuf] at hf ⊢
    cases f with
    | zero => simp at hf
    | succ f2 =>
      rw [recoverGo_step f2 a (encodeActions rest ++ t) consumed batch applied
        (hv a (List.mem_cons_self a rest))]
      have hlen : (encodeActions (a :: rest)).length =
          (encodeAction a).length + (encodeActions rest).length := by
        simp [encodeActions]
      have hf2 : (encodeActions rest ++ t).length < f2 := by
        have hpos : 0 < (encodeAction a).length := by
          cases hc : encodeAction a with
          | nil => exact absurd hc (encodeAction_ne_nil a)
          | cons x y => simp
        simp only [List.length_append] at hf ⊢
        omega
      cases a with
      | commit =>
        rw [if_pos rfl]
        have hih := ih t [] (applied ++ batch)
          (consumed + (encodeAction ManifestAction.commit).length) f2
          (fun x hx => hv x (List.mem_cons_of_mem _ hx)) ht hf2
        rw [hih]
        simp only [Prod.mk.injEq]
        exact ⟨rfl, by rw [hlen]; omega⟩
      | add s fk lk =>
        rw [if_neg (by simp)]
        have hih := ih t (batch ++ [ManifestAction.add s fk lk]) applied
          (consumed + (encodeAction (ManifestAction.add s fk lk)).length) f2
          (fun x hx => hv x (List.mem_cons_of_mem _ hx)) ht hf2
        rw [hih]
        simp only [Prod.mk.injEq]
        exact ⟨rfl, by rw [hlen]; omega⟩
      | remove s =>
        rw [if_neg (by simp)]
        have hih := ih t (batch ++ [ManifestAction.remove s]) applied
          (consumed + (encodeAction (ManifestAction.remove s)).length) f2
          (fun x hx => hv x (List.mem_cons_of_mem _ hx)) ht hf2
        rw [hih]
        simp only [Prod.mk.injEq]
        exact ⟨rfl, by rw [hlen]; omega⟩
      | newId lv =>
        rw [if_neg (by simp)]
        have hih := ih t (batch ++ [ManifestAction.newId lv]) applied
          (consumed + (encodeAction (ManifestAction.newId lv)).length) f2
          (fun x hx => hv x (List.mem_cons_of_mem _ hx)) ht hf2
        rw [hih]
        simp only [Prod.mk.injEq]
        exact ⟨rfl, by rw [hlen]; omega⟩
      | nextCompact lv =>
        rw [if_neg (by simp)]
        have hih := ih t (batch ++ [ManifestAction.nextCompact lv]) applied
          (consumed + (encodeAction (ManifestAction.nextCompact lv)).length) f2
          (fun x hx => hv x (List.mem_cons_of_mem _ hx)) ht hf2
        rw [hih]
        simp only [Prod.mk.injEq]
        exact ⟨rfl, by rw [hlen]; omega⟩

/-- C5 (amended): for any manifest log consisting of a sequence of encoded
actions followed by an undecodable tail (in particular a torn suffix),
recovery terminates and applies exactly the action groups terminated by a
`Commit` marker, in order, discarding the pending group; the file is
truncated at the end of the last successfully decoded action — not at the
end of the last completed group — and a clean end of file mid-group leaves
the file length unchanged (both cases give length `(encodeActions acts).length`
here). -/
theorem c5_recover_applies_committed_groups (acts : List ManifestAction) (t : List Nat)
    (hv : ∀ a ∈ acts, a.valid) (ht : decodeAction t = none) :
    recoverLog (encodeActions acts ++ t) =
      (committedOf acts [] [], (encodeActions acts).length) := by
  unfold recoverLog
  rw [recoverGo_encoded acts t [] [] 0 ((encodeActions acts ++ t).length + 1) hv ht (by omega)]
  simp

/-- Witness for C5's theorem at a concrete log: one committed `NewId(0)`
group, a pending `NewId(1)`, and the undecodable byte 250. -/
theorem c5_recover_witness :
    (∀ a ∈ [ManifestAction.newId 0, ManifestAction.commit, ManifestAction.newId 1],
        a.valid) ∧
    decodeAction [250] = none ∧
    recoverLog
        (encodeActions [ManifestAction.newId 0, ManifestAction.commit,
          ManifestAction.newId 1] ++ [250]) =
      (committedOf [ManifestAction.newId 0, ManifestAction.commit,
          ManifestAction.newId 1] [] [],
        (encodeActions [ManifestAction.newId 0, ManifestAction.commit,
          ManifestAction.newId 1]).length) :=
  ⟨by decide, by decide,
    c5_recover_applies_committed_groups _ [250] (by decide) (by decide)⟩

/-- C5 counterexample: on the log `[3, 0, 250]` (an encoded `NewId(0)`
followed by a byte that fails to decode) recovery applies nothing — there
is no completed group, so the end of the last completed group is offset
0 — yet the file is truncated at offset 2, the end of the decoded
`NewId(0)` action.  This refutes the claim that the log is truncated to
the end of the last completed group. -/
theorem c5_counterexample_truncation :
    recoverLog [3, 0, 250] = ([], 2) ∧
    committedOf [ManifestAction.newId 0] [] [] = [] ∧
    encodeActions [ManifestAction.newId 0] = [3, 0] ∧
    (2 : Nat) ≠ 0 := by
  refine ⟨by decide, rfl, by decide, by decide⟩

/-! ## Facts about the k-way merge selection -/

theorem pairwise_tail {α : Type} {r : α → α → Prop} {l : List α}
    (h : List.Pairwise r l) : List.Pairwise r l.tail := by
  cases l with
  | nil => exact h
  | cons a t => exact (List.pairwise_cons.mp h).2

theorem sizeSum_zero {lists : List (List KVPair)} (h : sizeSum lists = 0) :
    ∀ l ∈ lists, l = [] := by
  intro l hl
  have hx : l.length = 0 :=
    (List.sum_eq_zero_iff.mp h) l.length (List.mem_map_of_mem List.length hl)
  exact List.length_eq_zero.mp hx

theorem best_none {lists : List (List KVPair)} (h : best lists = none) :
    ∀ l ∈ lists, l = [] := by
  induction lists with
  | nil => intro l hl; cases hl
  | cons l0 rest ih =>
    intro l hl
    cases l0 with
    | nil =>
      rcases List.mem_cons.mp hl with h' | h'
      · exact h'
      · simp only [best, Option.map_eq_none'] at h
        exact ih h l h'
    | cons kv t =>
      exfalso
      simp only [best] at h
      split at h
      · cases h
      · split at h <;> cases h

theorem best_spec :
    ∀ (lists : List (List KVPair)) (i : Nat) (kv : KVPair),
      best lists = some (i, kv) →
      (∃ t, lists.get? i = some (kv :: t)) ∧
      (∀ j l2, lists.get? j = some l2 → ∀ kv2 t2, l2 = kv2 :: t2 → keyLe kv.1 kv2.1) ∧
      (∀ j, j < i → ∀ l2, lists.get? j = some l2 → ∀ kv2 t2, l2 = kv2 :: t2 →
        keyLt kv.1 kv2.1) := by
  intro lists
  induction lists with
  | nil => intro i kv h; cases h
  | cons l0 rest ih =>
    intro i kv h
    cases l0 with
    | nil =>
      simp only [best] at h
      rcases hb : best rest with _ | ⟨j, kvr⟩ <;> rw [hb] at h
      · cases h
      · simp only [Option.map_some', Option.some.injEq, Prod.mk.injEq] at h
        obtain ⟨hi, hkv⟩ := h
        subst hkv
        subst hi
        obtain ⟨⟨t, hget⟩, hmin, hfirst⟩ := ih j kvr hb
        refine ⟨⟨t, by simpa using hget⟩, ?_, ?_⟩
        · intro j2 l2 hj2 kv3 t3 hl2
          cases j2 with
          | zero =>
            subst hl2
            simp only [List.get?_cons_zero, Option.some.injEq] at hj2
            cases hj2
          | succ j3 =>
            simp only [List.get?_cons_succ] at hj2
            exact hmin j3 l2 hj2 kv3 t3 hl2
        · intro j2 hj2 l2 hgj2 kv3 t3 hl2
          cases j2 with
          | zero =>
            subst hl2
            simp only [List.get?_cons_zero, Option.some.injEq] at hgj2
            cases hgj2
          | succ j3 =>
            simp only [List.get?_cons_succ] at hgj2
            exact hfirst j3 (by omega) l2 hgj2 kv3 t3 hl2
    | cons kv0 t0 =>
      simp only [best] at h
      rcases hb : best rest with _ | ⟨j, kvr⟩ <;> rw [hb] at h
      · simp only [Option.some.injEq, Prod.mk.injEq] at h
        obtain ⟨hi, hkv⟩ := h
        subst hkv
        subst hi
        refine ⟨⟨t0, rfl⟩, ?_, ?_⟩
        · intro j2 l2 hj2 kv3 t3 hl2
          cases j2 with
          | zero =>
            subst hl2
            simp only [List.get?_cons_zero, Option.some.injEq] at hj2
            injection hj2 with he _
            rw [← he]
            exact keyLe_refl _
          | succ j3 =>
            simp only [List.get?_cons_succ] at hj2
            subst hl2
            have := best_none hb _ (List.get?_mem hj2)
            cases this
        · intro j2 hj2 _ _ _ _ _
          omega
      · obtain ⟨⟨t, hget⟩, hmin, hfirst⟩ := ih j kvr hb
        by_cases hc : keyCmp kvr.1 kv0.1 = .lt
        · simp only [] at h
          rw [if_pos hc] at h
          simp only [Option.some.injEq, Prod.mk.injEq] at h
          obtain ⟨hi, hkv⟩ := h
          subst hkv
          subst hi
          refine ⟨⟨t, by simpa using hget⟩, ?_, ?_⟩
          · intro j2 l2 hj2 kv3 t3 hl2
            cases j2 with
            | zero =>
              subst hl2
              simp only [List.get?_cons_zero, Option.some.injEq] at hj2
              injection hj2 with he _
              rw [← he]
              exact keyLt_le hc
            | succ j3 =>
              simp only [List.get?_cons_succ] at hj2
              exact hmin j3 l2 hj2 kv3 t3 hl2
          · intro j2 hj2 l2 hgj2 kv3 t3 hl2
            cases j2 with
            | zero =>
              subst hl2
              simp only [List.get?_cons_zero, Option.some.injEq] at hgj2
              injection hgj2 with he _
              rw [← he]
              exact hc
            | succ j3 =>
              simp only [List.get?_cons_succ] at hgj2
              exact hfirst j3 (by omega) l2 hgj2 kv3 t3 hl2
        · simp only [] at h
          rw [if_neg hc] at h
          simp only [Option.some.injEq, Prod.mk.injEq] at h
          obtain ⟨hi, hkv⟩ := h
          subst hkv
          subst hi
          have hle : keyLe kv0.1 kvr.1 := not_keyLt_iff.mp hc
          refine ⟨⟨t0, rfl⟩, ?_, ?_⟩
          · intro j2 l2 hj2 kv3 t3 hl2
            cases j2 with
            | zero =>
              subst hl2
              simp only [List.get?_cons_zero, Option.some.injEq] at hj2
              injection hj2 with he _
              rw [← he]
              exact keyLe_refl _
            | succ j3 =>
              simp only [List.get?_cons_succ] at hj2
              exact keyLe_trans hle (hmin j3 l2 hj2 kv3 t3 hl2)
          · intro j2 hj2 _ _ _ _ _
            omega

theorem popAt_get? :
    ∀ (lists : List (List KVPair)) (i j : Nat),
      (popAt lists i).get? j =
        if j = i then (lists.get? j).map List.tail else lists.get? j := by
  intro lists
  induction lists with
  | nil =>
    intro i j
    simp [popAt]
  | cons l rest ih =>
    intro i j
    cases i with
    | zero =>
      cases j with
      | zero => simp [popAt]
      | succ j2 => simp [popAt]
    | succ i2 =>
      cases j with
      | zero => simp [popAt]
      | succ j2 =>
        simp only [popAt, List.get?_cons_succ]
        rw [ih i2 j2]
        by_cases hj : j2 = i2
        · simp [hj]
        · simp [hj, fun h => hj (Nat.succ_injective h)]

theorem sizeSum_popAt :
    ∀ (lists : List (List KVPair)) (i : Nat) (kv : KVPair) (t : List KVPair),
      lists.get? i = some (kv :: t) → sizeSum (popAt lists i) + 1 = sizeSum lists := by
  intro lists
  induction lists with
  | nil =>
    intro i kv t h
    simp at h
  | cons l rest ih =>
    intro i kv t h
    cases i with
    | zero =>
      simp only [List.get?_cons_zero, Option.some.injEq] at h
      subst h
      simp only [popAt, sizeSum, List.map_cons, List.sum_cons, List.tail_cons,
        List.length_cons]
      omega
    | succ i2 =>
      simp only [List.get?_cons_succ] at h
      simp only [popAt, sizeSum, List.map_cons, List.sum_cons]
      have := ih i2 kv t h
      simp only [sizeSum] at this
      omega

theorem popAt_elem_sub :
    ∀ (lists : List (List KVPair)) (i : Nat) (l2 : List KVPair) (p : KVPair),
      l2 ∈ popAt lists i → p ∈ l2 → ∃ l0 ∈ lists, p ∈ l0 := by
  intro lists i l2 p hl2 hp
  obtain ⟨j, hj⟩ := List.mem_iff_get?.mp hl2
  rw [popAt_get? lists i j] at hj
  by_cases hji : j = i
  · rw [if_pos hji] at hj
    rcases hg : lists.get? j with _ | l0
    · rw [hg] at hj; cases hj
    · rw [hg] at hj
      simp only [Option.map_some', Option.some.injEq] at hj
      subst hj
      exact ⟨l0, List.get?_mem hg, List.mem_of_mem_tail hp⟩
  · rw [if_neg hji] at hj
    exact ⟨l2, List.get?_mem hj, hp⟩

theorem popAt_sorted {lists : List (List KVPair)} {i : Nat}
    (hs : ∀ l ∈ lists, List.Pairwise (fun a b => keyLt a.1 b.1) l) :
    ∀ l ∈ popAt lists i, List.Pairwise (fun a b => keyLt a.1 b.1) l := by
  intro l2 hl2
  obtain ⟨j, hj⟩ := List.mem_iff_get?.mp hl2
  rw [popAt_get? lists i j] at hj
  by_cases hji : j = i
  · rw [if_pos hji] at hj
    rcases hg : lists.get? j with _ | l0
    · rw [hg] at hj; cases hj
    · rw [hg] at hj
      simp only [Option.map_some', Option.some.injEq] at hj
      subst hj
      exact pairwise_tail (hs l0 (List.get?_mem hg))
  · rw [if_neg hji] at hj
    exact hs l2 (List.get?_mem hj)

theorem mem_after_pop :
    ∀ (lists : List (List KVPair)) (i : Nat) (kv : KVPair) (t : List KVPair) (p : KVPair),
      lists.get? i = some (kv :: t) → (∃ l ∈ lists, p ∈ l) →
      p = kv ∨ ∃ l2 ∈ popAt lists i, p ∈ l2 := by
  intro lists i kv t p hget ⟨l, hl, hp⟩
  obtain ⟨j, hj⟩ := List.mem_iff_get?.mp hl
  by_cases hji : j = i
  · subst hji
    rw [hget] at hj
    injection hj with hj2
    subst hj2
    rcases List.mem_cons.mp hp with h' | h'
    · exact Or.inl h'
    · refine Or.inr ⟨t, ?_, h'⟩
      have : (popAt lists j).get? j = some t := by
        rw [popAt_get? lists j j, if_pos rfl, hget]
        rfl
      exact List.get?_mem this
  · refine Or.inr ⟨l, ?_, hp⟩
    have : (popAt lists i).get? j = some l := by
      rw [popAt_get? lists i j, if_neg hji]
      exact hj
    exact List.get?_mem this

/-- The behaviour of the merge loop, generalized over the fuel and the
seeded `previous_key`: under the invariants that every sub-list is
strictly sorted and every remaining key is at least `prev`, the output
(1) only holds keys above `prev`, (2) is strictly sorted, (3) has
exactly the keys of the union except `prev` itself, and (4) takes each
emitted record from the earliest sub-list containing its key. -/
theorem mergedOutF_spec :
    ∀ (f : Nat) (lists : List (List KVPair)) (prev : List Nat),
      sizeSum lists ≤ f →
      (∀ l ∈ lists, List.Pairwise (fun a b => keyLt a.1 b.1) l) →
      (∀ l ∈ lists, ∀ p ∈ l, keyLe prev p.1) →
      ((∀ p ∈ mergedOutF f lists prev, keyLt prev p.1) ∧
       List.Pairwise (fun a b => keyLt a.1 b.1) (mergedOutF f lists prev) ∧
       (∀ k2 : List Nat, (∃ w, (k2, w) ∈ mergedOutF f lists prev) ↔
         ((∃ l ∈ lists, ∃ w, (k2, w) ∈ l) ∧ k2 ≠ prev)) ∧
       (∀ k2 v2, (k2, v2) ∈ mergedOutF f lists prev →
         ∃ i2 l2, lists.get? i2 = some l2 ∧ (k2, v2) ∈ l2 ∧
           ∀ j, j < i2 → ∀ l3, lists.get? j = some l3 → ∀ w, (k2, w) ∉ l3)) := by
  intro f
  induction f with
  | zero =>
    intro lists prev hsz hs hge
    have hempty : ∀ l ∈ lists, l = [] := sizeSum_zero (Nat.le_zero.mp hsz)
    refine ⟨?_, ?_, ?_, ?_⟩
    · intro p hp
      cases hp
    · exact List.Pairwise.nil
    · intro k2
      constructor
      · rintro ⟨w, hw⟩
        cases hw
      · rintro ⟨⟨l, hl, w, hw⟩, _⟩
        rw [hempty l hl] at hw
        cases hw
    · intro k2 v2 hv
      cases hv
  | succ f ih =>
    intro lists prev hsz hs hge
    rcases hb : best lists with _ | ⟨i, k, v⟩
    · have hempty := best_none hb
      simp only [mergedOutF, hb]
      refine ⟨?_, ?_, ?_, ?_⟩
      · intro p hp
        cases hp
      · exact List.Pairwise.nil
      · intro k2
        constructor
        · rintro ⟨w, hw⟩
          cases hw
        · rintro ⟨⟨l, hl, w, hw⟩, _⟩
          rw [hempty l hl] at hw
          cases hw
      · intro k2 v2 hv
        cases hv
    · obtain ⟨⟨t, hget⟩, hmin, hfirst⟩ := best_spec lists i (k, v) hb
      have hmem_i : ((k, v) :: t) ∈ lists := List.get?_mem hget
      have hprevk : keyLe prev k := hge _ hmem_i (k, v) (List.mem_cons_self _ _)
      have hszpop : sizeSum (popAt lists i) + 1 = sizeSum lists := sizeSum_popAt _ _ _ _ hget
      have hspop := popAt_sorted hs (i := i)
      simp only [mergedOutF, hb]
      by_cases hkp : k = prev
      · rw [if_pos hkp]
        have hgepop : ∀ l ∈ popAt lists i, ∀ p ∈ l, keyLe prev p.1 := by
          intro l hl p hp
          obtain ⟨l0, hl0, hp0⟩ := popAt_elem_sub lists i l p hl hp
          exact hge l0 hl0 p hp0
        obtain ⟨ih1, ih2, ih3, ih4⟩ := ih (popAt lists i) prev (by omega) hspop hgepop
        refine ⟨ih1, ih2, ?_, ?_⟩
        · intro k2
          rw [ih3 k2]
          constructor
          · rintro ⟨⟨l2, hl2, w, hw⟩, hne⟩
            obtain ⟨l0, hl0, hp0⟩ := popAt_elem_sub lists i l2 (k2, w) hl2 hw
            exact ⟨⟨l0, hl0, w, hp0⟩, hne⟩
          · rintro ⟨⟨l2, hl2, w, hw⟩, hne⟩
            rcases mem_after_pop lists i (k, v) t (k2, w) hget ⟨l2, hl2, hw⟩ with heq | hmem2
            · exfalso
              apply hne
              have : k2 = k := congrArg Prod.fst heq
              rw [this, hkp]
            · obtain ⟨l3, hl3, hw3⟩ := hmem2
              exact ⟨⟨l3, hl3, w, hw3⟩, hne⟩
        · intro k2 v2 hmem
          have hklt := ih1 (k2, v2) hmem
          obtain ⟨i2, l2, hgi2, hmemi2, hexcl⟩ := ih4 k2 v2 hmem
          rw [popAt_get? lists i i2] at hgi2
          by_cases hii : i2 = i
          · subst hii
            rw [if_pos rfl, hget] at hgi2
            simp only [Option.map_some', Option.some.injEq, List.tail_cons] at hgi2
            refine ⟨i2, (k, v) :: t, hget, ?_, ?_⟩
            · rw [← hgi2] at hmemi2
              exact List.mem_cons_of_mem _ hmemi2
            · intro j hj l3 hl3 w hw
              have hj2 : (popAt lists i2).get? j = some l3 := by
                rw [popAt_get? lists i2 j, if_neg (by omega)]
                exact hl3
              exact hexcl j hj l3 hj2 w hw
          · rw [if_neg hii] at hgi2
            refine ⟨i2, l2, hgi2, hmemi2, ?_⟩
            intro j hj l3 hl3 w hw
            by_cases hji : j = i
            · subst hji
              rw [hget] at hl3
              injection hl3 with hl3e
              subst hl3e
              rcases List.mem_cons.mp hw with h2 | h2
              · have hx : k2 = k := congrArg Prod.fst h2
                rw [hx, hkp] at hklt
                exact keyLt_irrefl prev hklt
              · have hj2 : (popAt lists j).get? j = some t := by
                  rw [popAt_get? lists j j, if_pos rfl, hget]
                  rfl
                exact hexcl j hj t hj2 w h2
            · have hj2 : (popAt lists i).get? j = some l3 := by
                rw [popAt_get? lists i j, if_neg hji]
                exact hl3
              exact hexcl j hj l3 hj2 w hw
      · rw [if_neg hkp]
        have hall : ∀ l ∈ lists, ∀ p ∈ l, keyLe k p.1 := by
          intro l hl p hp
          obtain ⟨j, hj⟩ := List.mem_iff_get?.mp hl
          cases l with
          | nil => cases hp
          | cons kv2 t2 =>
            have hle := hmin j _ hj kv2 t2 rfl
            rcases List.mem_cons.mp hp with h2 | h2
            · rw [h2]
              exact hle
            · have hlt : keyLt kv2.1 p.1 := (List.pairwise_cons.mp (hs _ hl)).1 p h2
              exact keyLe_trans hle (keyLt_le hlt)
        have hgepop : ∀ l ∈ popAt lists i, ∀ p ∈ l, keyLe k p.1 := by
          intro l hl p hp
          obtain ⟨l0, hl0, hp0⟩ := popAt_elem_sub lists i l p hl hp
          exact hall l0 hl0 p hp0
        obtain ⟨ih1, ih2, ih3, ih4⟩ := ih (popAt lists i) k (by omega) hspop hgepop
        have hprevlt : keyLt prev k := keyLe_ne_lt hprevk (fun h => hkp h.symm)
        refine ⟨?_, ?_, ?_, ?_⟩
        · intro p hp
          rcases List.mem_cons.mp hp with h2 | h2
          · rw [h2]
            exact hprevlt
          · exact keyLt_trans hprevlt (ih1 p h2)
        · rw [List.pairwise_cons]
          exact ⟨fun b hb2 => ih1 b hb2, ih2⟩
        · intro k2
          constructor
          · rintro ⟨w, hw⟩
            rcases List.mem_cons.mp hw with h2 | h2
            · have hx : k2 = k := congrArg Prod.fst h2
              subst hx
              refine ⟨⟨(k2, v) :: t, hmem_i, v, List.mem_cons_self _ _⟩, ?_⟩
              exact hkp
            · obtain ⟨⟨l2, hl2, w2, hw2⟩, hne⟩ := (ih3 k2).mp ⟨w, h2⟩
              obtain ⟨l0, hl0, hp0⟩ := popAt_elem_sub lists i l2 (k2, w2) hl2 hw2
              refine ⟨⟨l0, hl0, w2, hp0⟩, ?_⟩
              have hlek : keyLe k k2 := hgepop l2 hl2 (k2, w2) hw2
              have hltk : keyLt k k2 := keyLe_ne_lt hlek (fun h => hne h.symm)
              exact fun h => keyLt_ne (keyLt_trans hprevlt hltk) h.symm
          · rintro ⟨⟨l2, hl2, w, hw⟩, hne⟩
            by_cases hk2 : k2 = k
            · subst hk2
              exact ⟨v, by rw [show ((k2, v) : KVPair) = (k2, v) from rfl]; exact List.mem_cons_self _ _⟩
            · rcases mem_after_pop lists i (k, v) t (k2, w) hget ⟨l2, hl2, hw⟩ with heq | hmem2
              · exact absurd (congrArg Prod.fst heq) hk2
              · obtain ⟨l3, hl3, hw3⟩ := hmem2
                obtain ⟨w2, hw2⟩ := (ih3 k2).mpr ⟨⟨l3, hl3, w, hw3⟩, hk2⟩
                exact ⟨w2, List.mem_cons_of_mem _ hw2⟩
        · intro k2 v2 hmem
          rcases List.mem_cons.mp hmem with h2 | h2
          · obtain ⟨hk2, hv2⟩ := Prod.mk.injEq .. |>.mp h2
            subst hk2
            subst hv2
            refine ⟨i, (k2, v2) :: t, hget, List.mem_cons_self _ _, ?_⟩
            intro j hj l3 hl3 w hw
            cases l3 with
            | nil => cases hw
            | cons kv3 t3 =>
              have hlt := hfirst j hj _ hl3 kv3 t3 rfl
              rcases List.mem_cons.mp hw with h3 | h3
              · have hx : kv3.1 = k2 := (congrArg Prod.fst h3).symm
                rw [hx] at hlt
                exact keyLt_irrefl k2 hlt
              · have hsl3 := hs _ (List.get?_mem hl3)
                have hlt2 : keyLt kv3.1 k2 := (List.pairwise_cons.mp hsl3).1 (k2, w) h3
                exact keyLt_irrefl k2 (keyLt_trans hlt hlt2)
          · have hklt := ih1 (k2, v2) h2
            obtain ⟨i2, l2, hgi2, hmemi2, hexcl⟩ := ih4 k2 v2 h2
            rw [popAt_get? lists i i2] at hgi2
            by_cases hii : i2 = i
            · subst hii
              rw [if_pos rfl, hget] at hgi2
              simp only [Option.map_some', Option.some.injEq, List.tail_cons] at hgi2
              refine ⟨i2, (k, v) :: t, hget, ?_, ?_⟩
              · rw [← hgi2] at hmemi2
                exact List.mem_cons_of_mem _ hmemi2
              · intro j hj l3 hl3 w hw
                have hj2 : (popAt lists i2).get? j = some l3 := by
                  rw [popAt_get? lists i2 j, if_neg (by omega)]
                  exact hl3
                exact hexcl j hj l3 hj2 w hw
            · rw [if_neg hii] at hgi2
              refine ⟨i2, l2, hgi2, hmemi2, ?_⟩
              intro j hj l3 hl3 w hw
              by_cases hji : j = i
              · subst hji
                rw [hget] at hl3
                injection hl3 with hl3e
                subst hl3e
                rcases List.mem_cons.mp hw with h3 | h3
                · have hx : k2 = k := congrArg Prod.fst h3
                  rw [hx] at hklt
                  exact keyLt_irrefl k hklt
                · have hj2 : (popAt lists j).get? j = some t := by
                    rw [popAt_get? lists j j, if_pos rfl, hget]
                    rfl
                  exact hexcl j hj t hj2 w h3
              · have hj2 : (popAt lists i).get? j = some l3 := by
                  rw [popAt_get? lists i j, if_neg hji]
                  exact hl3
                exact hexcl j hj l3 hj2 w hw

theorem keyLe_nil (k : List Nat) : keyLe [] k := by
  cases k <;> simp [keyLe, keyCmp]

/-- C4: k-way merge correctness of `SSTGroupIter` for inputs with
non-empty keys: with each input list strictly sorted, the merged output
is strictly sorted, its key set is exactly the union of the input key
sets, and every emitted record comes from the earliest sub-iterator
whose list contains its key (ties broken towards the earlier
sub-iterator, duplicates of the previously emitted key dropped). -/
theorem c4_merge_correct (lists : List (List KVPair))
    (hs : ∀ l ∈ lists, List.Pairwise (fun a b => keyLt a.1 b.1) l)
    (hne : ∀ l ∈ lists, ∀ p ∈ l, p.1 ≠ []) :
    List.Pairwise (fun a b => keyLt a.1 b.1) (mergedOut lists []) ∧
    (∀ k : List Nat, (∃ v, (k, v) ∈ mergedOut lists []) ↔
      (∃ l ∈ lists, ∃ v, (k, v) ∈ l)) ∧
    (∀ k v, (k, v) ∈ mergedOut lists [] →
      ∃ i l2, lists.get? i = some l2 ∧ (k, v) ∈ l2 ∧
        ∀ j, j < i → ∀ l3, lists.get? j = some l3 → ∀ w, (k, w) ∉ l3) := by
  obtain ⟨h1, h2, h3, h4⟩ := mergedOutF_spec (sizeSum lists) lists [] (le_refl _) hs
    (fun l hl p hp => keyLe_nil p.1)
  refine ⟨h2, ?_, h4⟩
  intro k
  constructor
  · intro hex
    exact ((h3 k).mp hex).1
  · rintro ⟨l, hl, v, hvmem⟩
    exact (h3 k).mpr ⟨⟨l, hl, v, hvmem⟩, hne l hl (k, v) hvmem⟩

theorem c4_merge_correct_witness :
    (∀ l ∈ ([[([1], ValueUpdate.value [10]), ([3], ValueUpdate.value [30])],
             [([1], ValueUpdate.value [99]), ([2], ValueUpdate.value [20])]] :
        List (List KVPair)),
       List.Pairwise (fun a b => keyLt a.1 b.1) l) ∧
    (∀ l ∈ ([[([1], ValueUpdate.value [10]), ([3], ValueUpdate.value [30])],
             [([1], ValueUpdate.value [99]), ([2], ValueUpdate.value [20])]] :
        List (List KVPair)), ∀ p ∈ l, p.1 ≠ []) ∧
    (List.Pairwise (fun a b => keyLt a.1 b.1)
        (mergedOut [[([1], ValueUpdate.value [10]), ([3], ValueUpdate.value [30])],
                    [([1], ValueUpdate.value [99]), ([2], ValueUpdate.value [20])]] []) ∧
     (∀ k : List Nat,
        (∃ v, (k, v) ∈ mergedOut [[([1], ValueUpdate.value [10]), ([3], ValueUpdate.value [30])],
                    [([1], ValueUpdate.value [99]), ([2], ValueUpdate.value [20])]] []) ↔
        (∃ l ∈ ([[([1], ValueUpdate.value [10]), ([3], ValueUpdate.value [30])],
                 [([1], ValueUpdate.value [99]), ([2], ValueUpdate.value [20])]] :
            List (List KVPair)), ∃ v, (k, v) ∈ l)) ∧
     (∀ k v, (k, v) ∈ mergedOut [[([1], ValueUpdate.value [10]), ([3], ValueUpdate.value [30])],
                    [([1], ValueUpdate.value [99]), ([2], ValueUpdate.value [20])]] [] →
        ∃ i l2, ([[([1], ValueUpdate.value [10]), ([3], ValueUpdate.value [30])],
                  [([1], ValueUpdate.value [99]), ([2], ValueUpdate.value [20])]] :
            List (List KVPair)).get? i = some l2 ∧ (k, v) ∈ l2 ∧
          ∀ j, j < i → ∀ l3,
            ([[([1], ValueUpdate.value [10]), ([3], ValueUpdate.value [30])],
              [([1], ValueUpdate.value [99]), ([2], ValueUpdate.value [20])]] :
                List (List KVPair)).get? j = some l3 → ∀ w, (k, w) ∉ l3)) :=
  ⟨by decide, by decide, c4_merge_correct _ (by decide) (by decide)⟩

/-- C9: both merge iterators seed `previous_key` with the empty vector,
so a record whose key is the empty byte string is suppressed from the
merge output even when it is present in an input and no earlier record
was emitted. -/
theorem c9_empty_key_suppressed (lists : List (List KVPair))
    (hs : ∀ l ∈ lists, List.Pairwise (fun a b => keyLt a.1 b.1) l)
    (_hv : ∃ l ∈ lists, ∃ w, (([] : List Nat), w) ∈ l) :
    ∀ w, (([] : List Nat), w) ∉ mergedOut lists [] := by
  obtain ⟨h1, _, _, _⟩ := mergedOutF_spec (sizeSum lists) lists [] (le_refl _) hs
    (fun l hl p hp => keyLe_nil p.1)
  intro w hw
  exact keyLt_irrefl [] (h1 ([], w) hw)

theorem c9_empty_key_suppressed_witness :
    (∀ l ∈ ([[(([] : List Nat), ValueUpdate.value [7])]] : List (List KVPair)),
       List.Pairwise (fun a b => keyLt a.1 b.1) l) ∧
    (∃ l ∈ ([[(([] : List Nat), ValueUpdate.value [7])]] : List (List KVPair)),
       ∃ w, (([] : List Nat), w) ∈ l) ∧
    (∀ w, (([] : List Nat), w) ∉
       mergedOut [[(([] : List Nat), ValueUpdate.value [7])]] []) :=
  ⟨by decide,
   ⟨[(([] : List Nat), ValueUpdate.value [7])], List.mem_cons_self _ _,
    ValueUpdate.value [7], List.mem_cons_self _ _⟩,
   c9_empty_key_suppressed _ (by decide)
     ⟨[(([] : List Nat), ValueUpdate.value [7])], List.mem_cons_self _ _,
      ValueUpdate.value [7], List.mem_cons_self _ _⟩⟩

/-- Every record of every output file of the split is a record of the
stream being split (with the accumulator's records as the second
possible origin). -/
theorem compactSplitGo_sub :
    ∀ (rs cur : List KVPair) (off : Nat),
      ∀ f ∈ compactSplitGo rs cur off, ∀ p ∈ f, p ∈ rs ∨ p ∈ cur := by
  intro rs
  induction rs with
  | nil =>
    intro cur off f hf p hp
    simp only [compactSplitGo, List.mem_singleton] at hf
    subst hf
    exact Or.inr (List.mem_reverse.mp hp)
  | cons r rs ih =>
    intro cur off f hf p hp
    simp only [compactSplitGo] at hf
    split at hf
    · rcases List.mem_cons.mp hf with h | h
      · subst h
        exact Or.inr (List.mem_reverse.mp hp)
      · rcases ih [r] (recLen r) f h p hp with h2 | h2
        · exact Or.inl (List.mem_cons_of_mem _ h2)
        · rw [List.mem_singleton.mp h2]
          exact Or.inl (List.mem_cons_self _ _)
    · rcases ih (r :: cur) (off + recLen r) f hf p hp with h2 | h2
      · exact Or.inl (List.mem_cons_of_mem _ h2)
      · rcases List.mem_cons.mp h2 with h3 | h3
        · rw [h3]
          exact Or.inl (List.mem_cons_self _ _)
        · exact Or.inr h3

/-- C3 (corrected): a compaction drops tombstones from all of its output
files if and only if the destination level is at least -- not exactly
equal to -- the manifest's maximum level as read before the compaction;
below the maximum level the record stream is written out unchanged,
tombstones included. -/
theorem c3_tombstone_purge_condition (m : Manifest) (dest : Nat) (recs : List KVPair) :
    (m.maxLevel ≤ dest →
       ∀ f ∈ compactSplit (compactStream m dest recs), ∀ p ∈ f,
         p.2 ≠ ValueUpdate.tombstone) ∧
    (dest < m.maxLevel → compactStream m dest recs = recs) := by
  constructor
  · intro h f hf p hp
    rcases compactSplitGo_sub _ _ _ f hf p hp with h2 | h2
    · have hpt : shouldPurgeTombstone m dest = true := by
        simp only [shouldPurgeTombstone, ge_iff_le, decide_eq_true_eq]
        exact h
      rw [compactStream, if_pos hpt] at h2
      have hb := (List.mem_filter.mp h2).2
      intro hcontra
      rw [hcontra] at hb
      simp at hb
    · cases h2
  · intro h
    have hpt : ¬ (shouldPurgeTombstone m dest = true) := by
      simp only [shouldPurgeTombstone, ge_iff_le, decide_eq_true_eq]
      omega
    rw [compactStream, if_neg hpt]

/-- The spec ties the purge to destination equal to the maximum level;
compacting the deepest level itself targets `max_level + 1` and still
purges: with `active_ssts = {0: [1]}` (maximum level 0) and destination
level 1, a lone tombstone is dropped although `1 ≠ max_level`. -/
theorem c3_counterexample_purge_above_max :
    (1 ≠ (Manifest.mk [] [] [(0, [1])] []).maxLevel) ∧
    compactStream (Manifest.mk [] [] [(0, [1])] []) 1
      [([1], ValueUpdate.tombstone)] = [] := by
  constructor
  · decide
  · rfl

theorem mapInsertBy_self {α β : Type} (cmp : α → α → Ordering) :
    ∀ (m : List (α × β)) (k : α) (v : β), (k, v) ∈ mapInsertBy cmp m k v := by
  intro m
  induction m with
  | nil =>
    intro k v
    exact List.mem_singleton.mpr rfl
  | cons e t ih =>
    intro k v
    obtain ⟨a, b⟩ := e
    rcases h : cmp k a with h' | h' | h' <;> simp only [mapInsertBy, h]
    · exact List.mem_cons_self _ _
    · exact List.mem_cons_self _ _
    · exact List.mem_cons_of_mem _ (ih k v)

theorem mapInsertBy_mem_of_ne {α β : Type} (cmp : α → α → Ordering) :
    ∀ (m : List (α × β)) (k : α) (v : β) (a : α) (b : β),
      (a, b) ∈ m → cmp k a ≠ .eq → (a, b) ∈ mapInsertBy cmp m k v := by
  intro m
  induction m with
  | nil =>
    intro k v a b h _
    cases h
  | cons e t ih =>
    intro k v a b h hne
    obtain ⟨c, d⟩ := e
    rcases hc : cmp k c with h' | h' | h' <;> simp only [mapInsertBy, hc]
    · exact List.mem_cons_of_mem _ h
    · rcases List.mem_cons.mp h with h2 | h2
      · exfalso
        apply hne
        rw [show a = c from congrArg Prod.fst h2]
        exact hc
      · exact List.mem_cons_of_mem _ h2
    · rcases List.mem_cons.mp h with h2 | h2
      · rw [h2]
        exact List.mem_cons_self _ _
      · exact List.mem_cons_of_mem _ (ih k v a b h2 hne)

theorem mapInsertBy_mem_elim {α β : Type} (cmp : α → α → Ordering) :
    ∀ (m : List (α × β)) (k : α) (v : β) (e : α × β),
      e ∈ mapInsertBy cmp m k v → e ∈ m ∨ e = (k, v) := by
  intro m
  induction m with
  | nil =>
    intro k v e h
    exact Or.inr (List.mem_singleton.mp h)
  | cons p t ih =>
    intro k v e h
    obtain ⟨c, d⟩ := p
    rcases hc : cmp k c with h' | h' | h' <;> simp only [mapInsertBy, hc] at h
    · rcases List.mem_cons.mp h with h2 | h2
      · exact Or.inr h2
      · exact Or.inl h2
    · rcases List.mem_cons.mp h with h2 | h2
      · exact Or.inr h2
      · exact Or.inl (List.mem_cons_of_mem _ h2)
    · rcases List.mem_cons.mp h with h2 | h2
      · exact Or.inl (by rw [h2]; exact List.mem_cons_self _ _)
      · rcases ih k v e h2 with h3 | h3
        · exact Or.inl (List.mem_cons_of_mem _ h3)
        · exact Or.inr h3

theorem buildLoop_idx :
    ∀ (recs : List KVPair) (i off ps : Nat) (pk : List Nat)
      (idx : List (List Nat × Nat)),
      (buildLoop recs i off ps pk idx).1 =
        (idxEntries recs i off).foldl
          (fun acc p => mapInsertBy keyCmp acc p.1 p.2) idx := by
  intro recs
  induction recs with
  | nil =>
    intro i off ps pk idx
    rfl
  | cons r rest ih =>
    intro i off ps pk idx
    obtain ⟨k, v⟩ := r
    by_cases hm : i % sparseIndexInterval = 0 <;>
      simp only [buildLoop, idxEntries, hm, if_pos, if_neg, ite_true, ite_false,
        List.singleton_append, List.nil_append, List.foldl_cons] <;>
      exact ih _ _ _ _ _

theorem buildLoop_off :
    ∀ (recs : List KVPair) (i off ps : Nat) (pk : List Nat)
      (idx : List (List Nat × Nat)),
      (buildLoop recs i off ps pk idx).2.1 = off + encSize recs := by
  intro recs
  induction recs with
  | nil =>
    intro i off ps pk idx
    simp [buildLoop, encSize]
  | cons r rest ih =>
    intro i off ps pk idx
    obtain ⟨k, v⟩ := r
    simp only [buildLoop]
    rw [ih]
    simp only [encSize, List.map_cons, List.sum_cons]
    omega

theorem buildLoop_back :
    ∀ (recs : List KVPair) (i off ps : Nat) (pk : List Nat)
      (idx : List (List Nat × Nat)) (p : KVPair),
      recs.getLast? = some p →
      (buildLoop recs i off ps pk idx).2.2 = (recLen p, p.1) := by
  intro recs
  induction recs with
  | nil =>
    intro i off ps pk idx p h
    cases h
  | cons r rest ih =>
    intro i off ps pk idx p h
    obtain ⟨k, v⟩ := r
    cases rest with
    | nil =>
      simp only [List.getLast?_singleton, Option.some.injEq] at h
      subst h
      rfl
    | cons r2 t2 =>
      rw [List.getLast?_cons_cons] at h
      simp only [buildLoop]
      exact ih (i + 1) (off + recLen (k, v)) (recLen (k, v)) k
        (if i % sparseIndexInterval = 0 then mapInsertBy keyCmp idx k off else idx) p h

theorem encSize_getLast :
    ∀ (recs : List KVPair) (p : KVPair), recs.getLast? = some p →
      encSize recs = encSize recs.dropLast + recLen p := by
  intro recs p h
  have hd : recs.dropLast ++ [p] = recs := by
    have := List.dropLast_append_getLast? p h
    exact this
  conv_lhs => rw [← hd]
  simp [encSize]

theorem idxEntries_key_mem :
    ∀ (recs : List KVPair) (i off : Nat) (e : List Nat × Nat),
      e ∈ idxEntries recs i off → ∃ p ∈ recs, p.1 = e.1 := by
  intro recs
  induction recs with
  | nil =>
    intro i off e h
    cases h
  | cons r rest ih =>
    intro i off e h
    obtain ⟨k, v⟩ := r
    simp only [idxEntries] at h
    rcases List.mem_append.mp h with h2 | h2
    · refine ⟨(k, v), List.mem_cons_self _ _, ?_⟩
      split at h2
      · rw [List.mem_singleton.mp h2]
      · cases h2
    · obtain ⟨p, hp, he⟩ := ih _ _ _ h2
      exact ⟨p, List.mem_cons_of_mem _ hp, he⟩

theorem idxEntries_sorted :
    ∀ (recs : List KVPair) (i off : Nat),
      List.Pairwise (fun a b => keyLt a.1 b.1) recs →
      List.Pairwise (fun p q => keyCmp q.1 p.1 = .gt) (idxEntries recs i off) := by
  intro recs
  induction recs with
  | nil =>
    intro i off _
    exact List.Pairwise.nil
  | cons r rest ih =>
    intro i off hs
    obtain ⟨k, v⟩ := r
    obtain ⟨hhead, htail⟩ := List.pairwise_cons.mp hs
    simp only [idxEntries]
    split
    · rw [List.singleton_append, List.pairwise_cons]
      refine ⟨?_, ih _ _ htail⟩
      intro q hq
      obtain ⟨p, hp, he⟩ := idxEntries_key_mem _ _ _ _ hq
      rw [← he]
      exact keyCmp_gt_iff.mpr (hhead p hp)
    · rw [List.nil_append]
      exact ih _ _ htail

theorem idxEntries_mem_iff :
    ∀ (recs : List KVPair) (i off : Nat) (k : List Nat) (o : Nat),
      ((k, o) ∈ idxEntries recs i off ↔
        ∃ j p, (i + j) % sparseIndexInterval = 0 ∧ recs.get? j = some p ∧
          p.1 = k ∧ o = off + encSize (recs.take j)) := by
  intro recs
  induction recs with
  | nil =>
    intro i off k o
    constructor
    · intro h
      cases h
    · rintro ⟨j, p, _, hg, _, _⟩
      rw [List.get?_nil] at hg
      cases hg
  | cons r rest ih =>
    intro i off k o
    obtain ⟨k0, v0⟩ := r
    simp only [idxEntries]
    constructor
    · intro h
      rcases List.mem_append.mp h with h2 | h2
      · by_cases h0 : i % sparseIndexInterval = 0
        · rw [if_pos h0] at h2
          obtain ⟨hk, ho⟩ := Prod.mk.injEq .. |>.mp (List.mem_singleton.mp h2)
          refine ⟨0, (k0, v0), by simpa using h0, rfl, hk.symm, ?_⟩
          simp [encSize, ho]
        · rw [if_neg h0] at h2
          cases h2
      · obtain ⟨j, p, hmod, hg, hk, ho⟩ := (ih _ _ _ _).mp h2
        refine ⟨j + 1, p, ?_, ?_, hk, ?_⟩
        · rw [show i + (j + 1) = i + 1 + j by omega]
          exact hmod
        · rw [List.get?_cons_succ]
          exact hg
        · rw [ho]
          simp only [List.take_succ_cons, encSize, List.map_cons, List.sum_cons]
          omega
    · rintro ⟨j, p, hmod, hg, hk, ho⟩
      apply List.mem_append.mpr
      cases j with
      | zero =>
        rw [List.get?_cons_zero] at hg
        injection hg with hg
        left
        have h0 : i % sparseIndexInterval = 0 := by
          rw [show i = i + 0 by omega]
          exact hmod
        rw [if_pos h0]
        apply List.mem_singleton.mpr
        rw [← hg] at hk
        simp only [List.take_zero, encSize, List.map_nil, List.sum_nil,
          Nat.add_zero] at ho
        rw [← hk, ho]
      | succ j2 =>
        rw [List.get?_cons_succ] at hg
        right
        apply (ih _ _ _ _).mpr
        refine ⟨j2, p, ?_, hg, hk, ?_⟩
        · rw [show i + 1 + j2 = i + (j2 + 1) by omega]
          exact hmod
        · rw [ho]
          simp only [List.take_succ_cons, encSize, List.map_cons, List.sum_cons]
          omega

theorem pairwise_get?_keyLt {recs : List KVPair}
    (hs : List.Pairwise (fun a b => keyLt a.1 b.1) recs) :
    ∀ (j1 j2 : Nat) (p q : KVPair), recs.get? j1 = some p → recs.get? j2 = some q →
      j1 < j2 → keyLt p.1 q.1 := by
  intro j1 j2 p q h1 h2 hlt
  obtain ⟨hb1, he1⟩ := List.get?_eq_some.mp h1
  obtain ⟨hb2, he2⟩ := List.get?_eq_some.mp h2
  have hr := List.pairwise_iff_get.mp hs ⟨j1, hb1⟩ ⟨j2, hb2⟩ (Fin.mk_lt_mk.mpr hlt)
  rw [he1, he2] at hr
  exact hr

theorem get?_of_getLast? :
    ∀ (l : List KVPair) (p : KVPair), l.getLast? = some p →
      l.get? (l.length - 1) = some p := by
  intro l
  induction l with
  | nil =>
    intro p h
    cases h
  | cons a t ih =>
    intro p h
    cases t with
    | nil =>
      simp only [List.getLast?_singleton, Option.some.injEq] at h
      rw [h]
      rfl
    | cons b t2 =>
      rw [List.getLast?_cons_cons] at h
      have h2 := ih p h
      simp only [List.length_cons] at h2 ⊢
      rw [show t2.length + 1 + 1 - 1 = t2.length + 1 by omega, List.get?_cons_succ]
      rw [show t2.length + 1 - 1 = t2.length by omega] at h2
      exact h2

theorem flushIndex_eq (recs : List KVPair) (lp : KVPair)
    (hl : recs.getLast? = some lp)
    (hs : List.Pairwise (fun a b => keyLt a.1 b.1) recs) :
    flushIndex recs =
      mapInsertBy keyCmp (idxEntries recs 0 0) lp.1 (encSize recs.dropLast) := by
  cases recs with
  | nil => cases hl
  | cons h0 rest =>
    obtain ⟨kh, vh⟩ := h0
    have h1 := buildLoop_idx ((kh, vh) :: rest) 0 0 0 []
      (mapInsertBy keyCmp [] (kh, vh).1 0)
    have h2 := buildLoop_off ((kh, vh) :: rest) 0 0 0 []
      (mapInsertBy keyCmp [] (kh, vh).1 0)
    have h3 := buildLoop_back ((kh, vh) :: rest) 0 0 0 []
      (mapInsertBy keyCmp [] (kh, vh).1 0) lp hl
    rcases hb : buildLoop ((kh, vh) :: rest) 0 0 0 []
      (mapInsertBy keyCmp [] (kh, vh).1 0) with ⟨idx2, off2, ps2, pk2⟩
    rw [hb] at h1 h2 h3
    simp only at h1 h2 h3
    obtain ⟨hps, hpk⟩ := Prod.mk.injEq .. |>.mp h3
    have hE : idxEntries ((kh, vh) :: rest) 0 0 =
        (kh, 0) :: idxEntries rest 1 (0 + recLen (kh, vh)) := by
      simp only [idxEntries]
      rw [if_pos (by decide), List.singleton_append]
    have htail := idxEntries_sorted rest 1 (0 + recLen (kh, vh))
      (List.pairwise_cons.mp hs).2
    have hgt : ∀ p ∈ ([((kh, vh).1, 0)] : List (List Nat × Nat)),
        ∀ q ∈ idxEntries rest 1 (0 + recLen (kh, vh)), keyCmp q.1 p.1 = .gt := by
      intro p hp q hq
      rw [List.mem_singleton.mp hp]
      obtain ⟨r, hr, he⟩ := idxEntries_key_mem _ _ _ _ hq
      rw [← he]
      exact keyCmp_gt_iff.mpr ((List.pairwise_cons.mp hs).1 r hr)
    have hfold : idx2 = idxEntries ((kh, vh) :: rest) 0 0 := by
      rw [h1, hE, List.foldl_cons]
      have hone : mapInsertBy keyCmp (mapInsertBy keyCmp [] (kh, vh).1 0) kh 0 =
          [((kh, vh).1, 0)] := by
        simp [mapInsertBy, keyCmp_self]
      rw [hone, foldl_insert_app keyCmp _ _ hgt htail]
      rfl
    have hoffps : off2 - ps2 = encSize ((kh, vh) :: rest).dropLast := by
      rw [h2, hps, encSize_getLast ((kh, vh) :: rest) lp hl]
      omega
    simp only [flushIndex, List.head?_cons, hl, hb]
    rw [hfold, hoffps]

theorem compactIndex_eq (recs : List KVPair) (lp : KVPair)
    (hl : recs.getLast? = some lp)
    (hs : List.Pairwise (fun a b => keyLt a.1 b.1) recs) :
    compactIndex recs =
      mapInsertBy keyCmp (idxEntries recs 0 0) lp.1 (encSize recs.dropLast) := by
  have h1 := buildLoop_idx recs 0 0 0 [] []
  have h2 := buildLoop_off recs 0 0 0 [] []
  have h3 := buildLoop_back recs 0 0 0 [] [] lp hl
  rcases hb : buildLoop recs 0 0 0 [] [] with ⟨idx2, off2, ps2, pk2⟩
  rw [hb] at h1 h2 h3
  simp only at h1 h2 h3
  obtain ⟨hps, hpk⟩ := Prod.mk.injEq .. |>.mp h3
  have hfold : idx2 = idxEntries recs 0 0 := by
    rw [h1, foldl_insert_app keyCmp _ _ (by intro p hp; cases hp)
      (idxEntries_sorted recs 0 0 hs)]
    rfl
  have hoffps : off2 - ps2 = encSize recs.dropLast := by
    rw [h2, hps, encSize_getLast recs lp hl]
    omega
  simp only [compactIndex, hb]
  rw [hfold, hoffps, hpk]

/-- C7: for every nonempty, strictly sorted record list, the sparse
index written by a memtable flush and by the compactor is the same map;
the first record's key is indexed at offset 0, the last record's key at
the byte offset where the last record starts, an entry is present for
every record position divisible by `SPARSE_INDEX_INTERVAL`, and every
entry is either such a position's entry or the final entry for the last
record. -/
theorem c7_sparse_index_structure (recs : List KVPair) (lp : KVPair)
    (hl : recs.getLast? = some lp)
    (hs : List.Pairwise (fun a b => keyLt a.1 b.1) recs) :
    compactIndex recs = flushIndex recs ∧
    (∀ p, recs.head? = some p → (p.1, 0) ∈ flushIndex recs) ∧
    (lp.1, encSize recs.dropLast) ∈ flushIndex recs ∧
    (∀ j p, j % sparseIndexInterval = 0 → recs.get? j = some p →
       (p.1, encSize (recs.take j)) ∈ flushIndex recs) ∧
    (∀ e ∈ flushIndex recs,
       (∃ j p, j % sparseIndexInterval = 0 ∧ recs.get? j = some p ∧
          e = (p.1, encSize (recs.take j))) ∨
       e = (lp.1, encSize recs.dropLast)) := by
  have hflush := flushIndex_eq recs lp hl hs
  have hlastget := get?_of_getLast? recs lp hl
  have hpart4 : ∀ j p, j % sparseIndexInterval = 0 → recs.get? j = some p →
      (p.1, encSize (recs.take j)) ∈ flushIndex recs := by
    intro j p hj hg
    rw [hflush]
    obtain ⟨hjlen, _⟩ := List.get?_eq_some.mp hg
    by_cases hje : j = recs.length - 1
    · have hp : p = lp := by
        rw [hje] at hg
        rw [hg] at hlastget
        exact (Option.some.injEq _ _).mp hlastget
      rw [hp, hje, ← List.dropLast_eq_take recs]
      exact mapInsertBy_self keyCmp _ _ _
    · have hjlt : j < recs.length - 1 := by omega
      have hkey := pairwise_get?_keyLt hs j (recs.length - 1) p lp hg hlastget hjlt
      apply mapInsertBy_mem_of_ne
      · apply (idxEntries_mem_iff recs 0 0 p.1 (encSize (recs.take j))).mpr
        exact ⟨j, p, by simpa using hj, hg, rfl, by simp⟩
      · intro hcontra
        exact keyLt_ne hkey (keyCmp_eq_iff.mp hcontra).symm
  refine ⟨?_, ?_, ?_, hpart4, ?_⟩
  · rw [hflush, compactIndex_eq recs lp hl hs]
  · intro p hp
    have hg : recs.get? 0 = some p := by
      cases recs with
      | nil => cases hp
      | cons a t =>
        rw [List.head?_cons] at hp
        rw [List.get?_cons_zero]
        exact hp
    have := hpart4 0 p (by decide) hg
    simpa [encSize] using this
  · rw [hflush]
    exact mapInsertBy_self keyCmp _ _ _
  · intro e he
    rw [hflush] at he
    rcases mapInsertBy_mem_elim keyCmp _ _ _ _ he with h | h
    · obtain ⟨ke, oe⟩ := e
      obtain ⟨j, p, hmod, hg, hk, ho⟩ := (idxEntries_mem_iff recs 0 0 ke oe).mp h
      refine Or.inl ⟨j, p, by simpa using hmod, hg, ?_⟩
      rw [hk, ho]
      simp
    · exact Or.inr h

theorem c7_sparse_index_structure_witness :
    (([(([1], ValueUpdate.value [5]) : KVPair),
       ([2], ValueUpdate.value [6])]).getLast? = some ([2], ValueUpdate.value [6])) ∧
    (List.Pairwise (fun a b => keyLt a.1 b.1)
      [(([1], ValueUpdate.value [5]) : KVPair), ([2], ValueUpdate.value [6])]) ∧
    (compactIndex [(([1], ValueUpdate.value [5]) : KVPair), ([2], ValueUpdate.value [6])] =
       flushIndex [(([1], ValueUpdate.value [5]) : KVPair), ([2], ValueUpdate.value [6])] ∧
     (∀ p, ([(([1], ValueUpdate.value [5]) : KVPair), ([2], ValueUpdate.value [6])]).head? = some p →
        (p.1, 0) ∈ flushIndex [(([1], ValueUpdate.value [5]) : KVPair), ([2], ValueUpdate.value [6])]) ∧
     ((([2], ValueUpdate.value [6]) : KVPair).1,
        encSize ([(([1], ValueUpdate.value [5]) : KVPair), ([2], ValueUpdate.value [6])]).dropLast) ∈
          flushIndex [(([1], ValueUpdate.value [5]) : KVPair), ([2], ValueUpdate.value [6])] ∧
     (∀ j p, j % sparseIndexInterval = 0 →
        ([(([1], ValueUpdate.value [5]) : KVPair), ([2], ValueUpdate.value [6])]).get? j = some p →
        (p.1, encSize (([(([1], ValueUpdate.value [5]) : KVPair), ([2], ValueUpdate.value [6])]).take j)) ∈
          flushIndex [(([1], ValueUpdate.value [5]) : KVPair), ([2], ValueUpdate.value [6])]) ∧
     (∀ e ∈ flushIndex [(([1], ValueUpdate.value [5]) : KVPair), ([2], ValueUpdate.value [6])],
        (∃ j p, j % sparseIndexInterval = 0 ∧
           ([(([1], ValueUpdate.value [5]) : KVPair), ([2], ValueUpdate.value [6])]).get? j = some p ∧
           e = (p.1, encSize (([(([1], ValueUpdate.value [5]) : KVPair), ([2], ValueUpdate.value [6])]).take j))) ∨
        e = ((([2], ValueUpdate.value [6]) : KVPair).1,
          encSize ([(([1], ValueUpdate.value [5]) : KVPair), ([2], ValueUpdate.value [6])]).dropLast))) :=
  ⟨by decide, by decide, c7_sparse_index_structure _ _ (by decide) (by decide)⟩

theorem encSize_reverse (l : List KVPair) : encSize l.reverse = encSize l := by
  simp only [encSize, List.map_reverse]
  exact List.sum_reverse (List.map recLen l)

theorem compactSplitGo_bound :
    ∀ (rs cur : List KVPair) (off : Nat),
      (∀ r ∈ rs, recLen r ≤ sstableFileSize) →
      off = encSize cur →
      off ≤ sstableFileSize →
      ∀ f ∈ compactSplitGo rs cur off, encSize f ≤ sstableFileSize := by
  intro rs
  induction rs with
  | nil =>
    intro cur off _ hoff hle f hf
    rw [List.mem_singleton.mp hf, encSize_reverse, ← hoff]
    exact hle
  | cons r rs ih =>
    intro cur off h hoff hle f hf
    simp only [compactSplitGo] at hf
    split at hf
    · rcases List.mem_cons.mp hf with h2 | h2
      · rw [h2, encSize_reverse, ← hoff]
        exact hle
      · refine ih [r] (recLen r) (fun q hq => h q (List.mem_cons_of_mem _ hq)) ?_ ?_ f h2
        · simp [encSize]
        · exact h r (List.mem_cons_self _ _)
    · refine ih (r :: cur) (off + recLen r)
        (fun q hq => h q (List.mem_cons_of_mem _ hq)) ?_ (by omega) f hf
      simp only [encSize, List.map_cons, List.sum_cons]
      rw [hoff]
      simp [encSize]
      omega

/-- C8 (corrected): a compaction finalizes the current output before a
record would push its records section past `SSTABLE_FILE_SIZE`, so
every compaction output respects the budget provided no single encoded
record exceeds it; the bound does not hold for flush outputs (see the
counterexample). -/
theorem c8_compact_outputs_bounded (recs : List KVPair)
    (h : ∀ r ∈ recs, recLen r ≤ sstableFileSize) :
    ∀ f ∈ compactSplit recs, encSize f ≤ sstableFileSize := by
  intro f hf
  exact compactSplitGo_bound recs [] 0 h rfl (by simp [sstableFileSize]) f hf

theorem c8_compact_outputs_bounded_witness :
    (∀ r ∈ ([(([1], ValueUpdate.value [9]) : KVPair),
             ([2], ValueUpdate.tombstone)]), recLen r ≤ sstableFileSize) ∧
    (∀ f ∈ compactSplit [(([1], ValueUpdate.value [9]) : KVPair),
             ([2], ValueUpdate.tombstone)], encSize f ≤ sstableFileSize) :=
  ⟨by decide, c8_compact_outputs_bounded _ (by decide)⟩

theorem flushRecordsSize_singleton (r : KVPair) :
    flushRecordsSize [r] = recLen r := by
  show (flushRecordsBytes [r]).length = _
  simp [flushRecordsBytes, recLen]

theorem recLen_value (k v : List Nat) :
    recLen (k, ValueUpdate.value v) =
      (encodeU64 k.length).length + k.length +
        (1 + ((encodeU64 v.length).length + v.length)) := by
  simp only [recLen, encodeRecord, encodeBytes, encodeVU, List.length_append,
    List.length_cons, List.length_nil, List.singleton_append]
  omega

/-- A memtable holding one record with a 2 MiB value flushes it into a
single SST whose records section exceeds `SSTABLE_FILE_SIZE`: the
flush path never splits its output. -/
theorem c8_counterexample_flush_oversize :
    sstableFileSize <
      flushRecordsSize [([1], ValueUpdate.value (List.replicate (2 ^ 21) 0))] := by
  rw [flushRecordsSize_singleton, recLen_value, List.length_replicate]
  have h1 := encodeU64_length_pos (2 ^ 21)
  have h2 : sstableFileSize = 2097152 := by norm_num [sstableFileSize]
  have h3 : (2 : Nat) ^ 21 = 2097152 := by norm_num
  rw [h3] at h1 ⊢
  omega

/-- C6 (corrected, amended): `load_by_id` performs no validation at
all: for any records buffer whatsoever -- decodable or not, matching
the index or not -- loading a file with a well-formed index tail
succeeds and returns the records buffer and index verbatim.  The
endpoint and trailing-byte checks claimed by the spec do not exist. -/
theorem c6_load_reads_back_unvalidated (recsBytes : List Nat)
    (idx : List (List Nat × Nat))
    (hlen : idx.length < 2 ^ 64)
    (hv : ∀ p ∈ idx, p.1.length < 2 ^ 64 ∧ p.2 < 2 ^ 64)
    (hs : entriesSorted idx)
    (hsz : (encodeIdx idx).length < 2 ^ 64) :
    sstLoad (sstFileBytes recsBytes idx) = some (recsBytes, idx) := by
  have hblen : (be64enc (encodeIdx idx).length).length = 8 := rfl
  have hflen : (sstFileBytes recsBytes idx).length =
      recsBytes.length + (encodeIdx idx).length + 8 := by
    simp only [sstFileBytes, List.length_append, hblen]
  have hdrop8 : (sstFileBytes recsBytes idx).drop
      ((sstFileBytes recsBytes idx).length - 8) =
      be64enc (encodeIdx idx).length := by
    rw [hflen, sstFileBytes,
      show recsBytes.length + (encodeIdx idx).length + 8 - 8 =
        (recsBytes ++ encodeIdx idx).length from by simp]
    exact drop_append_exact _ _
  have hisize : be64dec ((sstFileBytes recsBytes idx).drop
      ((sstFileBytes recsBytes idx).length - 8)) = (encodeIdx idx).length := by
    rw [hdrop8]
    exact be64dec_be64enc _ hsz
  simp only [sstLoad]
  rw [hisize]
  have hge : ¬ ((sstFileBytes recsBytes idx).length < 8) := by
    rw [hflen]
    omega
  rw [if_neg hge]
  have h2 : ¬ ((sstFileBytes recsBytes idx).length - 8 < (encodeIdx idx).length) := by
    rw [hflen]
    omega
  rw [if_neg h2]
  have hioff : (sstFileBytes recsBytes idx).length - 8 - (encodeIdx idx).length =
      recsBytes.length := by
    rw [hflen]
    omega
  rw [hioff]
  have hdropR : (sstFileBytes recsBytes idx).drop recsBytes.length =
      encodeIdx idx ++ be64enc (encodeIdx idx).length := by
    rw [sstFileBytes, List.append_assoc]
    exact drop_append_exact _ _
  rw [hdropR, List.take_left]
  have hdec : decodeIdx (encodeIdx idx) = some (idx, (encodeIdx idx).length) := by
    have h3 := decodeIdx_encodeIdx idx [] hlen hv hs
    rwa [List.append_nil] at h3
  rw [hdec]
  have htakeR : (sstFileBytes recsBytes idx).take recsBytes.length = recsBytes := by
    rw [sstFileBytes, List.append_assoc]
    exact List.take_left _ _
  simp only [htakeR]

theorem c6_load_reads_back_unvalidated_witness :
    (([(([3] : List Nat), 7)]).length < 2 ^ 64) ∧
    (∀ p ∈ ([(([3] : List Nat), 7)] : List (List Nat × Nat)),
       p.1.length < 2 ^ 64 ∧ p.2 < 2 ^ 64) ∧
    entriesSorted [(([3] : List Nat), 7)] ∧
    ((encodeIdx [(([3] : List Nat), 7)]).length < 2 ^ 64) ∧
    sstLoad (sstFileBytes [9, 9] [(([3] : List Nat), 7)]) =
      some ([9, 9], [(([3] : List Nat), 7)]) :=
  ⟨by decide, by decide, by decide, by decide,
   c6_load_reads_back_unvalidated _ _ (by decide) (by decide) (by decide) (by decide)⟩

/-- A file whose records section holds the single record `([2],
Tombstone)` while its index names first key `[1]` loads successfully:
the claimed first/last-key enforcement does not happen. -/
theorem c6_counterexample_mismatched_load :
    sstLoad ([1, 2, 0] ++ [1, 1, 1, 0] ++ be64enc 4) =
      some ([1, 2, 0], [([1], 0)]) ∧
    decodeRecords [1, 2, 0] = some [([2], ValueUpdate.tombstone)] ∧
    idxFirstKey [([1], 0)] ≠ [2] := by
  refine ⟨?_, ?_, ?_⟩ <;> decide

theorem mapLookupBy_none {α β : Type} (cmp : α → α → Ordering) :
    ∀ (t : List (α × β)) (k : α), (∀ p ∈ t, cmp k p.1 ≠ .eq) →
      mapLookupBy cmp t k = none := by
  intro t
  induction t with
  | nil =>
    intro k _
    rfl
  | cons e r ih =>
    intro k h
    obtain ⟨a, b⟩ := e
    have ha := h (a, b) (List.mem_cons_self _ _)
    rw [mapLookupBy_cons, if_neg ha]
    exact ih k (fun p hp => h p (List.mem_cons_of_mem _ hp))

theorem mapInsertBy_keys_of_present {β : Type} :
    ∀ (l : List (Nat × β)) (k : Nat) (v : β),
      levelsSorted l → mapLookupBy natCmp l k ≠ none →
      (mapInsertBy natCmp l k v).map Prod.fst = l.map Prod.fst := by
  intro l
  induction l with
  | nil =>
    intro k v _ h
    exact absurd rfl h
  | cons e t ih =>
    intro k v hs h
    obtain ⟨a, b⟩ := e
    rcases hc : natCmp k a with h' | h' | h'
    · exfalso
      apply h
      rw [mapLookupBy_cons, if_neg (by simp [hc])]
      apply mapLookupBy_none
      intro p hp
      have hka : k < a := natCmp_lt_iff.mp hc
      have hap : a < p.1 := (List.pairwise_cons.mp hs).1 p hp
      intro hx
      have hke := natCmp_eq_iff.mp hx
      omega
    · simp only [mapInsertBy, hc, List.map_cons]
      rw [natCmp_eq_iff.mp hc]
    · have hlt : mapLookupBy natCmp t k ≠ none := by
        intro hn
        apply h
        rw [mapLookupBy_cons, if_neg (by simp [hc])]
        exact hn
      simp only [mapInsertBy, hc, List.map_cons]
      rw [ih k v (List.pairwise_cons.mp hs).2 hlt]

theorem maxLevel_congr_keys (l1 l2 : List (Nat × List Nat))
    (hmap : l1.map Prod.fst = l2.map Prod.fst) :
    (match l1.getLast? with | some p => p.1 | none => 0) =
    (match l2.getLast? with | some p => p.1 | none => 0) := by
  have h := congrArg List.getLast? hmap
  rw [List.getLast?_map, List.getLast?_map] at h
  cases hg1 : l1.getLast? with
  | none =>
    cases hg2 : l2.getLast? with
    | none => rfl
    | some p2 =>
      rw [hg1, hg2] at h
      simp at h
  | some p1 =>
    cases hg2 : l2.getLast? with
    | none =>
      rw [hg1, hg2] at h
      simp at h
    | some p2 =>
      rw [hg1, hg2] at h
      simp only [Option.map_some', Option.some.injEq] at h
      simp only [h]

/-- C10: `remove_sst` never deletes a level's entry from `active_ssts`:
the level keeps a (possibly empty) id set, so removing the last live id
of the deepest level leaves `max_level()` reporting that level --
`max_level` names the deepest level that has ever held a live SST, not
the deepest level currently holding one. -/
theorem c10_remove_sst_keeps_max_level (m : Manifest) (sid : SstId)
    (hs : levelsSorted m.activeSsts)
    (hmem : mapLookupBy natCmp m.activeSsts sid.level ≠ none)
    (_hmax : sid.level = m.maxLevel) :
    (m.removeSst sid).maxLevel = m.maxLevel ∧
    mapLookupBy natCmp (m.removeSst sid).activeSsts sid.level =
      some (idSetErase ((mapLookupBy natCmp m.activeSsts sid.level).getD [])
        sid.id) := by
  constructor
  · have hk := mapInsertBy_keys_of_present m.activeSsts sid.level
      (idSetErase ((mapLookupBy natCmp m.activeSsts sid.level).getD []) sid.id)
      hs hmem
    simp only [Manifest.maxLevel, Manifest.removeSst]
    exact maxLevel_congr_keys _ _ hk
  · simp only [Manifest.removeSst]
    rw [mapLookupBy_insert natCmp (fun x y => natCmp_eq_iff) m.activeSsts
      sid.level sid.level _, if_pos rfl]

theorem c10_remove_sst_keeps_max_level_witness :
    levelsSorted (Manifest.mk [] [] [(0, [5])]
      [(⟨0, 5⟩, ([1], [2]))]).activeSsts ∧
    (mapLookupBy natCmp (Manifest.mk [] [] [(0, [5])]
      [(⟨0, 5⟩, ([1], [2]))]).activeSsts (0 : Nat) ≠ none) ∧
    ((0 : Nat) = (Manifest.mk [] [] [(0, [5])]
      [(⟨0, 5⟩, ([1], [2]))]).maxLevel) ∧
    (((Manifest.mk [] [] [(0, [5])] [(⟨0, 5⟩, ([1], [2]))]).removeSst
        ⟨0, 5⟩).maxLevel =
      (Manifest.mk [] [] [(0, [5])] [(⟨0, 5⟩, ([1], [2]))]).maxLevel ∧
     mapLookupBy natCmp ((Manifest.mk [] [] [(0, [5])]
        [(⟨0, 5⟩, ([1], [2]))]).removeSst ⟨0, 5⟩).activeSsts (0 : Nat) =
      some (idSetErase ((mapLookupBy natCmp (Manifest.mk [] [] [(0, [5])]
        [(⟨0, 5⟩, ([1], [2]))]).activeSsts (0 : Nat)).getD []) 5)) :=
  ⟨by decide, by decide, by decide,
   c10_remove_sst_keeps_max_level _ ⟨0, 5⟩ (by decide) (by decide) (by decide)⟩

theorem compactAddsGo_no_remove (dest : Nat) :
    ∀ (files : List (List KVPair)) (i : Nat), ∀ a ∈ compactAddsGo dest i files,
      ∀ sid, a ≠ ManifestAction.remove sid := by
  intro files
  induction files with
  | nil =>
    intro i a ha
    cases ha
  | cons f rest ih =>
    intro i a ha sid
    cases rest with
    | nil =>
      intro hc
      rw [List.mem_singleton.mp ha] at hc
      cases hc
    | cons f2 t2 =>
      rcases List.mem_cons.mp ha with h | h
      · intro hc
        rw [h] at hc
        cases hc
      · rcases List.mem_cons.mp h with h2 | h2
        · intro hc
          rw [h2] at hc
          cases hc
        · exact ih (i + 1) a h2 sid

/-- C1: after `insert [107] [120]` followed by `remove [107]`, `get
[107]` still returns the inserted value: `Store::remove` stages the
tombstone in the WAL batch but never calls `memtable.commit`, so the
applied memtable -- which `get` consults -- keeps the old binding. -/
theorem c1_remove_then_get_returns_stale_value :
    ((Store.new.insert [107] [120]).bind
        (fun st => st.remove [107])).bind
      (fun st => st.get [107]) = some (some [120]) := by
  decide

/-- C2: no compaction batch ever stages a `Remove` action, and applying
a level-0 compaction's batch to a manifest with live level-0 SSTs
`[0, 1, 2, 3]` leaves all four live: the inputs are never retired. -/
theorem c2_compaction_installs_without_removing :
    (∀ (dest startId : Nat) (files : List (List KVPair)),
       ∀ a ∈ compactActions dest startId files, ∀ sid,
         a ≠ ManifestAction.remove sid) ∧
    (applyBatch
        ((((Manifest.new.addSst ⟨0, 0⟩ [0] [3]).addSst ⟨0, 1⟩ [1] [4]).addSst
            ⟨0, 2⟩ [2] [5]).addSst ⟨0, 3⟩ [0] [9])
        (compactActions 1 0 [[([2], ValueUpdate.value [7])]])).map
      (fun m => mapLookupBy natCmp m.activeSsts 0) = some (some [0, 1, 2, 3]) := by
  constructor
  · intro dest startId files a ha sid
    rcases List.mem_cons.mp ha with h | h
    · intro hc
      rw [h] at hc
      cases hc
    · exact compactAddsGo_no_remove dest files startId a h sid
  · decide
